import Mathlib

/-!
# Verification of the dash-analytics aggregation engine

Shallow embedding of `src/server/src/services/aggregation.ts` (the
Aggregation/KPI engine of the dash-analytics repository) together with the
MongoDB pipeline semantics and the date-fns calendar arithmetic it invokes.
Metric observation values are modelled as rationals (the source uses IEEE
doubles; none of the verified properties depend on rounding).
-/

set_option maxRecDepth 2000

namespace DashAnalytics

/-! ## Byte-wise lexicographic comparison of strings

Models how MongoDB's `$sort` compares the (ASCII) bucket-key strings the
pipeline produces: byte-wise lexicographic order on the UTF-8 encoding,
which on ASCII strings is code-point order on characters. -/

/-- Unicode code point of a character, as a natural number. -/
def cp (c : Char) : Nat := c.val.toNat

theorem cp_inj {a b : Char} (h : cp a = cp b) : a = b := by
  apply Char.eq_of_val_eq
  apply UInt32.eq_of_toBitVec_eq
  apply BitVec.eq_of_toNat_eq
  exact h

/-- Lexicographic `≤` on character lists, by code point. -/
def lexLe : List Char → List Char → Bool
  | [], _ => true
  | _ :: _, [] => false
  | a :: as, b :: bs =>
    if cp a < cp b then true
    else if cp a = cp b then lexLe as bs
    else false

/-- Byte-wise lexicographic `≤` on strings (ASCII content). -/
def strLe (a b : String) : Bool := lexLe a.data b.data

theorem lexLe_refl (l : List Char) : lexLe l l = true := by
  induction l with
  | nil => rfl
  | cons a as ih => simp [lexLe, ih]

theorem lexLe_total (a b : List Char) : lexLe a b = true ∨ lexLe b a = true := by
  induction a generalizing b with
  | nil => exact Or.inl rfl
  | cons x xs ih =>
    cases b with
    | nil => exact Or.inr rfl
    | cons y ys =>
      rcases Nat.lt_trichotomy (cp x) (cp y) with h | h | h
      · exact Or.inl (by simp [lexLe, h])
      · rcases ih ys with h' | h'
        · exact Or.inl (by simp [lexLe, h, h'])
        · exact Or.inr (by simp [lexLe, h.symm, h'])
      · exact Or.inr (by simp [lexLe, h])

theorem lexLe_trans {a b c : List Char} (hab : lexLe a b = true)
    (hbc : lexLe b c = true) : lexLe a c = true := by
  induction a generalizing b c with
  | nil => rfl
  | cons x xs ih =>
    cases b with
    | nil => simp [lexLe] at hab
    | cons y ys =>
      cases c with
      | nil => simp [lexLe] at hbc
      | cons z zs =>
        simp only [lexLe] at hab hbc ⊢
        split_ifs at hab hbc ⊢ <;>
          first
            | rfl
            | omega
            | (exact ih hab hbc)

/-! ## Zero-padded decimal rendering

`padC w n` is the `w`-character zero-padded decimal rendering of `n`,
exactly what Mongo's `$dateToString` format specifiers `%Y`/`%m`/`%d`/`%H`
and date-fns' `yyyyMMdd` / `yyyy-MM-dd` patterns produce for in-range
values. -/

/-- `w`-digit zero-padded decimal digits of `n` (low digit last). -/
def padC : Nat → Nat → List Char
  | 0, _ => []
  | w + 1, n => padC w (n / 10) ++ [Char.ofNat (48 + n % 10)]

theorem padC_length (w n : Nat) : (padC w n).length = w := by
  induction w generalizing n with
  | zero => rfl
  | succ w ih => simp [padC, ih]

theorem cp_ofNat_digit {k : Nat} (hk : k < 10) : cp (Char.ofNat (48 + k)) = 48 + k := by
  interval_cases k <;> decide

theorem padC_digit {w n : Nat} {c : Char} (hc : c ∈ padC w n) :
    48 ≤ cp c ∧ cp c ≤ 57 := by
  induction w generalizing n with
  | zero => simp [padC] at hc
  | succ w ih =>
    simp only [padC, List.mem_append, List.mem_singleton] at hc
    rcases hc with hc | hc
    · exact ih hc
    · subst hc
      have h10 : n % 10 < 10 := Nat.mod_lt _ (by omega)
      have := cp_ofNat_digit h10
      omega

/-- A character of a zero-padded number is a decimal digit, hence never a
separator such as `':'`, `','`, `'-'` or `'T'`. -/
theorem padC_ne_sep {w n : Nat} {c : Char} (hc : c ∈ padC w n)
    (s : Char) (hs : cp s < 48 ∨ 57 < cp s) : c ≠ s := by
  rcases padC_digit hc with ⟨h1, h2⟩
  intro h
  subst h
  omega

/-- Cancelling two equal-position occurrences of a separator absent from the
leading segments. -/
theorem sep_cancel {c : Char} : ∀ {a b x y : List Char}, c ∉ a → c ∉ b →
    a ++ c :: x = b ++ c :: y → a = b ∧ x = y := by
  intro a
  induction a with
  | nil =>
    intro b x y _ hb h
    cases b with
    | nil => simpa using h
    | cons q qs =>
      simp only [List.nil_append, List.cons_append, List.cons.injEq] at h
      exact absurd (h.1 ▸ List.mem_cons_self q qs) (h.1 ▸ hb)
  | cons p ps ih =>
    intro b x y ha hb h
    cases b with
    | nil =>
      simp only [List.cons_append, List.nil_append, List.cons.injEq] at h
      exact absurd (h.1 ▸ List.mem_cons_self p ps) (h.1 ▸ ha)
    | cons q qs =>
      simp only [List.cons_append, List.cons.injEq] at h
      obtain ⟨hpq, hrest⟩ := h
      have := ih (fun hm => ha (List.mem_cons_of_mem _ hm))
        (fun hm => hb (List.mem_cons_of_mem _ hm)) hrest
      exact ⟨by rw [hpq, this.1], this.2⟩

theorem lexLe_append {a b : List Char} (x y : List Char)
    (hlen : a.length = b.length) :
    lexLe (a ++ x) (b ++ y) = if a = b then lexLe x y else lexLe a b := by
  induction a generalizing b with
  | nil =>
    cases b with
    | nil => simp
    | cons q qs => simp at hlen
  | cons p ps ih =>
    cases b with
    | nil => simp at hlen
    | cons q qs =>
      simp only [List.length_cons, Nat.succ.injEq] at hlen
      by_cases hpq : cp p = cp q
      · have hpq' : p = q := cp_inj hpq
        subst hpq'
        have hL : lexLe ((p :: ps) ++ x) ((p :: qs) ++ y) = lexLe (ps ++ x) (qs ++ y) := by
          simp [lexLe, List.cons_append]
        rw [hL, ih hlen]
        by_cases hps : ps = qs
        · simp [hps]
        · have hne : (p :: ps) ≠ (p :: qs) := by simp [hps]
          simp [hps, hne, lexLe]
      · have hne : (p :: ps) ≠ (q :: qs) := by
          intro h
          exact hpq (by rw [List.cons.injEq] at h; rw [h.1])
        simp only [List.cons_append, lexLe, hpq, if_false, hne]

theorem padC_inj : ∀ {w n1 n2 : Nat}, n1 < 10 ^ w → n2 < 10 ^ w →
    padC w n1 = padC w n2 → n1 = n2 := by
  intro w
  induction w with
  | zero => intro n1 n2 h1 h2 _; omega
  | succ w ih =>
    intro n1 n2 h1 h2 h
    simp only [padC] at h
    have hlen : (padC w (n1 / 10)).length = (padC w (n2 / 10)).length := by
      simp [padC_length]
    obtain ⟨hq, hd⟩ := List.append_inj h hlen
    have h1' : n1 / 10 < 10 ^ w := by
      have : 10 ^ (w + 1) = 10 ^ w * 10 := pow_succ 10 w
      omega
    have h2' : n2 / 10 < 10 ^ w := by
      have : 10 ^ (w + 1) = 10 ^ w * 10 := pow_succ 10 w
      omega
    have hdiv := ih h1' h2' hq
    have hmod : n1 % 10 = n2 % 10 := by
      have hmem := List.cons.injEq (Char.ofNat (48 + n1 % 10)) []
        (Char.ofNat (48 + n2 % 10)) []
      simp only [List.cons.injEq, and_true] at hd
      have e1 := cp_ofNat_digit (show n1 % 10 < 10 by omega)
      have e2 := cp_ofNat_digit (show n2 % 10 < 10 by omega)
      have : cp (Char.ofNat (48 + n1 % 10)) = cp (Char.ofNat (48 + n2 % 10)) := by
        rw [hd]
      omega
    omega

theorem lexLe_padC : ∀ {w n1 n2 : Nat}, n1 < 10 ^ w → n2 < 10 ^ w →
    (lexLe (padC w n1) (padC w n2) = true ↔ n1 ≤ n2) := by
  intro w
  induction w with
  | zero =>
    intro n1 n2 h1 h2
    have : n1 = 0 := by omega
    have : n2 = 0 := by omega
    simp [padC, lexLe]
    omega
  | succ w ih =>
    intro n1 n2 h1 h2
    have hp : 10 ^ (w + 1) = 10 ^ w * 10 := pow_succ 10 w
    have h1' : n1 / 10 < 10 ^ w := by omega
    have h2' : n2 / 10 < 10 ^ w := by omega
    simp only [padC]
    rw [lexLe_append _ _ (by simp [padC_length])]
    have e1 := cp_ofNat_digit (show n1 % 10 < 10 by omega)
    have e2 := cp_ofNat_digit (show n2 % 10 < 10 by omega)
    by_cases hq : padC w (n1 / 10) = padC w (n2 / 10)
    · have hdiv := padC_inj h1' h2' hq
      simp only [hq, if_true, lexLe]
      split_ifs with ha hb
      · simp only [true_iff]
        omega
      · simp only [lexLe, true_iff]
        omega
      · simp only [Bool.false_eq_true, false_iff]
        omega
    · have hdiv : n1 / 10 ≠ n2 / 10 := fun h => hq (h ▸ rfl)
      simp only [hq, if_false]
      rw [ih h1' h2']
      omega

/-! ## Calendar model

Calendar dates (proleptic Gregorian) and instants with millisecond
resolution, as used by the JavaScript `Date` values flowing through the
service, together with the date-fns operations the source calls:
`startOfDay`, `endOfDay`, `differenceInDays`, `subDays`, `format`. -/

/-- A calendar date. -/
structure Date where
  year : Nat
  month : Nat
  day : Nat
deriving DecidableEq, Repr

/-- Gregorian leap-year rule. -/
def isLeap (y : Nat) : Bool := (y % 4 == 0 && y % 100 != 0) || y % 400 == 0

/-- Number of days in a month. -/
def daysInMonth (y m : Nat) : Nat :=
  if m = 2 then (if isLeap y then 29 else 28)
  else if m = 4 ∨ m = 6 ∨ m = 9 ∨ m = 11 then 30
  else 31

/-- Days of the year elapsed strictly before month `m` begins. -/
def daysBeforeMonth (y m : Nat) : Nat :=
  let base :=
    match m with
    | 1 => 0 | 2 => 31 | 3 => 59 | 4 => 90 | 5 => 120 | 6 => 151
    | 7 => 181 | 8 => 212 | 9 => 243 | 10 => 273 | 11 => 304 | _ => 334
  if 3 ≤ m ∧ isLeap y then base + 1 else base

/-- Serial day number of a date: `0001-01-01` is day `0`.  Day numbers
realise calendar-day arithmetic (`differenceInDays`) and weekday
computation (`0001-01-01` is a Monday in the proleptic Gregorian
calendar). -/
def dayNumber (d : Date) : Nat :=
  let py := d.year - 1
  365 * py + py / 4 - py / 100 + py / 400 + daysBeforeMonth d.year d.month + (d.day - 1)

/-- date-fns `differenceInDays` on two calendar dates: the signed number of
calendar days from `s` to `e`. -/
def differenceInDays (e s : Date) : Int := (dayNumber e : Int) - (dayNumber s : Int)

/-- The calendar day before `d` (month/year borrow). -/
def calPrevDay (d : Date) : Date :=
  if 1 < d.day then ⟨d.year, d.month, d.day - 1⟩
  else if 1 < d.month then ⟨d.year, d.month - 1, daysInMonth d.year (d.month - 1)⟩
  else ⟨d.year - 1, 12, 31⟩

/-- The calendar day after `d`. -/
def calNextDay (d : Date) : Date :=
  if d.day < daysInMonth d.year d.month then ⟨d.year, d.month, d.day + 1⟩
  else if d.month < 12 then ⟨d.year, d.month + 1, 1⟩
  else ⟨d.year + 1, 1, 1⟩

/-- Shift a date back by `n` calendar days. -/
def subDaysN (d : Date) : Nat → Date
  | 0 => d
  | n + 1 => calPrevDay (subDaysN d n)

/-- Shift a date forward by `n` calendar days. -/
def addDaysN (d : Date) : Nat → Date
  | 0 => d
  | n + 1 => calNextDay (addDaysN d n)

/-- date-fns `subDays` with a signed amount (negative amounts add days). -/
def subDays (d : Date) (k : Int) : Date :=
  if 0 ≤ k then subDaysN d k.toNat else addDaysN d (-k).toNat

/-- An instant: a calendar date with time of day, millisecond resolution. -/
structure Ts where
  date : Date
  hour : Nat
  minute : Nat
  second : Nat
  ms : Nat
deriving DecidableEq, Repr

/-- Numeric encoding of a date used to compare instants chronologically
(field-lexicographic; faithful for in-range field values). -/
def dateEnc (d : Date) : Nat := (d.year * 100 + d.month) * 100 + d.day

/-- Numeric encoding of an instant, chronological for in-range fields. -/
def Ts.enc (t : Ts) : Nat :=
  (((dateEnc t.date * 24 + t.hour) * 60 + t.minute) * 60 + t.second) * 1000 + t.ms

/-- date-fns `startOfDay`: midnight of the calendar day. -/
def startOfDay (d : Date) : Ts := ⟨d, 0, 0, 0, 0⟩

/-- date-fns `endOfDay`: `23:59:59.999` of the calendar day. -/
def endOfDay (d : Date) : Ts := ⟨d, 23, 59, 59, 999⟩

/-- Whole-day-inclusive window test `startOfDay s ≤ t ≤ endOfDay e` used by
every `$match` stage of the service. -/
def tsInRange (s e : Date) (t : Ts) : Bool :=
  (startOfDay s).enc ≤ t.enc && t.enc ≤ (endOfDay e).enc

/-- `%Y-%m-%d` / date-fns `yyyy-MM-dd`: zero-padded ISO date rendering. -/
def fmtDate (d : Date) : String :=
  ⟨padC 4 d.year ++ '-' :: padC 2 d.month ++ '-' :: padC 2 d.day⟩

/-- date-fns `yyyyMMdd` (the compact form used in cache keys). -/
def fmtCompact (d : Date) : String :=
  ⟨padC 4 d.year ++ padC 2 d.month ++ padC 2 d.day⟩

/-- ISO day-of-week index of a date, `0` = Monday. -/
def isoDow (d : Date) : Nat := dayNumber d % 7

/-- The Monday of the ISO week containing `d` (what
`$dateFromParts {isoWeekYear, isoWeek, isoDayOfWeek: 1}` reconstructs). -/
def isoWeekMonday (d : Date) : Date := subDaysN d (isoDow d)

/-- The four supported time-series granularities. -/
inductive Granularity
  | hour
  | day
  | week
  | month
deriving DecidableEq, Repr

/-- `getDateGroup` of the source, evaluated at an instant: the canonical
bucket key produced by the `$dateToString` grouping expression for each
granularity. -/
def getDateGroup (g : Granularity) (t : Ts) : String :=
  match g with
  | .hour => fmtDate t.date ++ "T" ++ ⟨padC 2 t.hour⟩ ++ ":00:00"
  | .week => fmtDate (isoWeekMonday t.date)
  | .month => fmtDate ⟨t.date.year, t.date.month, 1⟩
  | .day => fmtDate t.date

/-! ## JavaScript object model

Result rows are JavaScript objects: insertion-ordered string-keyed maps.
Assigning to an existing key overwrites it in place; assigning a fresh key
appends it.  Values are strings (bucket keys) or numbers. -/

/-- A JavaScript value occurring in a result row. -/
inductive JVal
  | str (s : String)
  | num (q : ℚ)
deriving DecidableEq, Repr

/-- A JavaScript object: insertion-ordered key/value list (keys unique). -/
abbrev JObj := List (String × JVal)

/-- Property read `o[k]` (`undefined` modelled as `none`). -/
def jget : JObj → String → Option JVal
  | [], _ => none
  | e :: es, k => if e.1 == k then some e.2 else jget es k

/-- Property write `o[k] = v`: overwrite in place when the key exists,
append otherwise (JavaScript assignment on unique-key objects). -/
def jset : JObj → String → JVal → JObj
  | [], k, v => [(k, v)]
  | e :: es, k, v => if e.1 == k then (k, v) :: es else e :: jset es k v

/-- The key list of an object, in insertion order. -/
def jkeys (o : JObj) : List String := o.map (·.1)

/-! ## Sorting

Insertion sort with a boolean comparator, the model of Mongo's `$sort`
stage (any output consistent with the comparator; ties broken
arbitrarily). -/

/-- Insert into a sorted list. -/
def insertB (le : α → α → Bool) (a : α) : List α → List α
  | [] => [a]
  | b :: bs => if le a b then a :: b :: bs else b :: insertB le a bs

/-- Insertion sort by a boolean comparator. -/
def sortB (le : α → α → Bool) : List α → List α
  | [] => []
  | a :: as => insertB le a (sortB le as)

theorem mem_insertB {le : α → α → Bool} {a x : α} {l : List α} :
    x ∈ insertB le a l ↔ x = a ∨ x ∈ l := by
  induction l with
  | nil => simp [insertB]
  | cons b bs ih =>
    simp only [insertB]
    split_ifs with h
    · simp [List.mem_cons]
    · simp only [List.mem_cons, ih]
      tauto

theorem mem_sortB {le : α → α → Bool} {x : α} {l : List α} :
    x ∈ sortB le l ↔ x ∈ l := by
  induction l with
  | nil => simp [sortB]
  | cons a as ih =>
    simp only [sortB, mem_insertB, List.mem_cons, ih]

theorem pairwise_insertB {le : α → α → Bool}
    (total : ∀ a b, le a b = true ∨ le b a = true)
    (trans : ∀ a b c, le a b = true → le b c = true → le a c = true)
    {a : α} {l : List α} (h : l.Pairwise (fun x y => le x y = true)) :
    (insertB le a l).Pairwise (fun x y => le x y = true) := by
  induction l with
  | nil => simp [insertB]
  | cons b bs ih =>
    simp only [insertB]
    rcases List.pairwise_cons.mp h with ⟨hb, hbs⟩
    split_ifs with hab
    · refine List.pairwise_cons.mpr ⟨?_, h⟩
      intro x hx
      rcases List.mem_cons.mp hx with rfl | hx
      · exact hab
      · exact trans _ _ _ hab (hb x hx)
    · have hba : le b a = true := by
        rcases total a b with h' | h'
        · exact absurd h' hab
        · exact h'
      refine List.pairwise_cons.mpr ⟨?_, ih hbs⟩
      intro x hx
      rcases mem_insertB.mp hx with rfl | hx
      · exact hba
      · exact hb x hx

theorem pairwise_sortB {le : α → α → Bool}
    (total : ∀ a b, le a b = true ∨ le b a = true)
    (trans : ∀ a b c, le a b = true → le b c = true → le a c = true)
    (l : List α) : (sortB le l).Pairwise (fun x y => le x y = true) := by
  induction l with
  | nil => simp [sortB]
  | cons a as ih => exact pairwise_insertB total trans ih

/-- First occurrence of each key, in encounter order (deterministic model
of Mongo's `$group` key enumeration). -/
def firstKeysAux [DecidableEq K] (seen : List K) : List K → List K
  | [] => []
  | k :: rest =>
    if k ∈ seen then firstKeysAux seen rest
    else k :: firstKeysAux (k :: seen) rest

/-- Distinct keys of a list, keeping first occurrences in order. -/
def firstKeys [DecidableEq K] (l : List K) : List K := firstKeysAux [] l

/-! ## The metric data model -/

/-- A stored metric observation (document of the `Metric` collection):
name, numeric value, timestamp, source tag.  The open `metadata` map plays
no role in aggregation and is omitted. -/
structure Obs where
  name : String
  value : ℚ
  timestamp : Ts
  source : String
deriving DecidableEq, Repr

/-- Display format class of a metric. -/
inductive ValueFormat
  | number
  | currency
  | percentage
  | duration
deriving DecidableEq, Repr

/-- Aggregation policy of a metric. -/
inductive AggPolicy
  | sum
  | avg
deriving DecidableEq, Repr

/-- One entry of the metric configuration registry. -/
structure MetricCfg where
  label : String
  fmt : ValueFormat
  aggregation : AggPolicy
deriving DecidableEq, Repr

/-- The `METRIC_CONFIG` registry of the source, as a lookup function. -/
def METRIC_CONFIG : String → Option MetricCfg
  | "revenue" => some ⟨"Revenue", .currency, .sum⟩
  | "sessions" => some ⟨"Sessions", .number, .sum⟩
  | "conversions" => some ⟨"Conversions", .number, .sum⟩
  | "bounce_rate" => some ⟨"Bounce Rate", .percentage, .avg⟩
  | "avg_session_duration" => some ⟨"Avg. Session Duration", .duration, .avg⟩
  | "active_users" => some ⟨"Active Users", .number, .sum⟩
  | "page_views" => some ⟨"Page Views", .number, .sum⟩
  | "new_users" => some ⟨"New Users", .number, .sum⟩
  | _ => none

/-- `Object.keys(METRIC_CONFIG)` in literal insertion order. -/
def kpiMetricNames : List String :=
  ["revenue", "sessions", "conversions", "bounce_rate",
   "avg_session_duration", "active_users", "page_views", "new_users"]

/-! ## getTimeSeries -/

/-- Parameters of a `getTimeSeries` request. -/
structure TimeSeriesParams where
  startDate : Date
  endDate : Date
  granularity : Granularity
  metrics : List String
  source : Option String
deriving DecidableEq, Repr

/-- The `$match` stage of the time-series pipeline: name in the requested
set, timestamp in the whole-day-inclusive window, and the source filter
when a (truthy, i.e. non-empty) source is supplied. -/
def matchStage (store : List Obs) (p : TimeSeriesParams) : List Obs :=
  store.filter fun o =>
    p.metrics.contains o.name && tsInRange p.startDate p.endDate o.timestamp &&
      (match p.source with
       | some s => if s = "" then true else o.source == s
       | none => true)

/-- First `$group` stage: per `(bucketKey, metricName)`, the sum of the
observation values. -/
def tsGroups (store : List Obs) (p : TimeSeriesParams) :
    List ((String × String) × ℚ) :=
  let l := matchStage store p
  (firstKeys (l.map fun o => (getDateGroup p.granularity o.timestamp, o.name))).map
    fun k =>
      (k, ((l.filter fun o =>
        (getDateGroup p.granularity o.timestamp, o.name) == k).map (·.value)).sum)

/-- The `$sort {"_id.date": 1}` stage. -/
def tsGroupsSorted (store : List Obs) (p : TimeSeriesParams) :
    List ((String × String) × ℚ) :=
  sortB (fun a b => strLe a.1.1 b.1.1) (tsGroups store p)

/-- Distinct bucket keys, in the order the second `$group` meets them. -/
def bucketsOf (store : List Obs) (p : TimeSeriesParams) : List String :=
  firstKeys ((tsGroupsSorted store p).map (·.1.1))

/-- One pivoted row per bucket:
`$mergeObjects [{date: bucket}, $arrayToObject(pushed pairs)]`. -/
def rawRow (store : List Obs) (p : TimeSeriesParams) (d : String) : JObj :=
  ((tsGroupsSorted store p).filter (fun e => e.1.1 == d)).foldl
    (fun acc e => jset acc e.1.2 (JVal.num e.2)) [("date", JVal.str d)]

/-- BSON-style comparison of row `date` values used by the final
`$sort {date: 1}` (numbers sort before strings; strings byte-wise). -/
def jvalLe : JVal → JVal → Bool
  | .num a, .num b => a ≤ b
  | .num _, .str _ => true
  | .str _, .num _ => false
  | .str a, .str b => strLe a b

/-- The `date` field of a row, as sorted on. -/
def rowDate (r : JObj) : JVal := (jget r "date").getD (JVal.num 0)

/-- The pivoted rows after the final `$sort {date: 1}`. -/
def rawRows (store : List Obs) (p : TimeSeriesParams) : List JObj :=
  sortB (fun a b => jvalLe (rowDate a) (rowDate b))
    ((bucketsOf store p).map (rawRow store p))

/-- The zero-fill normalization:
`normalized = {date: row.date}; metrics.forEach(m => normalized[m] = row[m] ?? 0)`. -/
def normalizeRow (metrics : List String) (row : JObj) : JObj :=
  metrics.foldl (fun acc m => jset acc m ((jget row m).getD (JVal.num 0)))
    [("date", (jget row "date").getD (JVal.num 0))]

/-- `AggregationService.getTimeSeries`, cache aside: the computed,
normalized, date-sorted row sequence. -/
def getTimeSeries (store : List Obs) (p : TimeSeriesParams) : List JObj :=
  (rawRows store p).map (normalizeRow p.metrics)

/-- `Array.prototype.join(",")`. -/
def joinComma : List String → String
  | [] => ""
  | [x] => x
  | x :: y :: rest => x ++ "," ++ joinComma (y :: rest)

/-- The wire name of a granularity. -/
def granStr : Granularity → String
  | .hour => "hour"
  | .day => "day"
  | .week => "week"
  | .month => "month"

/-- The time-series cache key:
`ts:${metrics.join(",")}:${granularity}:${yyyyMMdd(start)}-${yyyyMMdd(end)}:${source ?? "all"}`. -/
def tsCacheKey (p : TimeSeriesParams) : String :=
  "ts:" ++ joinComma p.metrics ++ ":" ++ granStr p.granularity ++ ":" ++
    fmtCompact p.startDate ++ "-" ++ fmtCompact p.endDate ++ ":" ++
    (p.source.getD "all")

/-! ## getKPIs -/

/-- `aggregatePeriod`: one `$match`+`$group` pass computing, per metric
name, the sum and average of the window's values, then selecting sum or
average according to the registry (`sum` when unregistered). -/
def aggregatePeriod (store : List Obs) (metrics : List String) (s e : Date) :
    List (String × ℚ) :=
  let l := store.filter fun o =>
    metrics.contains o.name && tsInRange s e o.timestamp
  (firstKeys (l.map (·.name))).map fun n =>
    let vs := (l.filter (fun o => o.name == n)).map (·.value)
    let v := match METRIC_CONFIG n with
      | some c => if c.aggregation = .avg then vs.sum / (vs.length : ℚ) else vs.sum
      | none => vs.sum
    (n, v)

/-- The daily-trend `$group` per `(day, metricName)` with summed values. -/
def trendGroups (store : List Obs) (metrics : List String) (s e : Date) :
    List ((String × String) × ℚ) :=
  let l := store.filter fun o =>
    metrics.contains o.name && tsInRange s e o.timestamp
  (firstKeys (l.map fun o => (fmtDate o.timestamp.date, o.name))).map
    fun k =>
      (k, ((l.filter fun o =>
        (fmtDate o.timestamp.date, o.name) == k).map (·.value)).sum)

/-- Trend groups after the final `$sort {"_id.date": 1}`. -/
def trendGroupsSorted (store : List Obs) (metrics : List String) (s e : Date) :
    List ((String × String) × ℚ) :=
  sortB (fun a b => strLe a.1.1 b.1.1) (trendGroups store metrics s e)

/-- `getTrends`: the per-metric trend array, entries pushed in result
order (`trendMap[r._id.metric] ?? []`). -/
def getTrends (store : List Obs) (metrics : List String) (s e : Date)
    (m : String) : List (String × ℚ) :=
  ((trendGroupsSorted store metrics s e).filter (fun g => g.1.2 == m)).map
    fun g => (g.1.1, g.2)

/-- One KPI entry of the response. -/
structure KPIItem where
  id : String
  label : String
  value : ℚ
  previousValue : ℚ
  fmt : ValueFormat
  trend : List (String × ℚ)
deriving DecidableEq, Repr

/-- A formatted period boundary pair (`start`/`end` of the source). -/
structure PeriodBounds where
  start : String
  stop : String
deriving DecidableEq, Repr

/-- The `period` part of a KPI response. -/
structure KPIPeriod where
  current : PeriodBounds
  previous : PeriodBounds
deriving DecidableEq, Repr

/-- A KPI response. -/
structure KPIResponse where
  kpis : List KPIItem
  period : KPIPeriod
deriving DecidableEq, Repr

/-- The KPI cache key `kpi:${yyyyMMdd(start)}-${yyyyMMdd(end)}`. -/
def kpiCacheKey (s e : Date) : String :=
  "kpi:" ++ fmtCompact s ++ "-" ++ fmtCompact e

/-- `AggregationService.getKPIs`, cache aside: previous window derived by
shifting both bounds back by `differenceInDays(endDate, startDate)`; one
KPI item per registry entry with `?? 0` / `?? []` defaults. -/
def getKPIs (store : List Obs) (startDate endDate : Date) : KPIResponse :=
  let periodLength := differenceInDays endDate startDate
  let prevStart := subDays startDate periodLength
  let prevEnd := subDays endDate periodLength
  let currentResults := aggregatePeriod store kpiMetricNames startDate endDate
  let previousResults := aggregatePeriod store kpiMetricNames prevStart prevEnd
  { kpis := kpiMetricNames.map fun m =>
      let cfg := (METRIC_CONFIG m).getD ⟨"", .number, .sum⟩
      { id := m
        label := cfg.label
        value := (currentResults.lookup m).getD 0
        previousValue := (previousResults.lookup m).getD 0
        fmt := cfg.fmt
        trend := getTrends store kpiMetricNames startDate endDate m }
    period :=
      { current := ⟨fmtDate startDate, fmtDate endDate⟩
        previous := ⟨fmtDate prevStart, fmtDate prevEnd⟩ } }

/-! ## Cache layer

Cache-aside wrappers.  A cache state maps keys to stored payloads; a `get`
failure or disabled backend is modelled as `none` (the source swallows
every cache error), a `set` failure as a dropped write.  The functions
return the result, the metric store after the call (the pipelines are
read-only: `$match`/`$group`/`$sort`/`$replaceRoot` stages only), and the
list of attempted cache writes `(key, payload, ttl seconds)`. -/

/-- `CACHE_TTL` of the source (seconds). -/
def CACHE_TTL : Nat := 120

/-- `getTimeSeries` including its cache interaction. -/
def getTimeSeriesEff (store : List Obs) (cache : String → Option (List JObj))
    (p : TimeSeriesParams) :
    List JObj × List Obs × List (String × List JObj × Nat) :=
  match cache (tsCacheKey p) with
  | some rows => (rows, store, [])
  | none =>
    let rows := getTimeSeries store p
    (rows, store, [(tsCacheKey p, rows, CACHE_TTL)])

/-- `getKPIs` including its cache interaction (TTL 300). -/
def getKPIsEff (store : List Obs) (cache : String → Option KPIResponse)
    (startDate endDate : Date) :
    KPIResponse × List Obs × List (String × KPIResponse × Nat) :=
  match cache (kpiCacheKey startDate endDate) with
  | some r => (r, store, [])
  | none =>
    let r := getKPIs store startDate endDate
    (r, store, [(kpiCacheKey startDate endDate, r, 300)])

/-! ## Object and comparator lemmas -/

theorem jget_jset_self (o : JObj) (k : String) (v : JVal) :
    jget (jset o k v) k = some v := by
  induction o with
  | nil => simp [jget, jset]
  | cons e es ih =>
    simp only [jset]
    split_ifs with hek
    · simp [jget]
    · simp only [jget, hek, if_false]
      exact ih

theorem jget_jset_ne (o : JObj) (k k' : String) (v : JVal) (h : k' ≠ k) :
    jget (jset o k v) k' = jget o k' := by
  have hkk : (k == k') = false := by
    simp only [beq_eq_false_iff_ne]
    exact fun he => h he.symm
  induction o with
  | nil => simp [jget, jset, hkk]
  | cons e es ih =>
    simp only [jset]
    split_ifs with hek
    · have hek' : e.1 = k := by simpa using hek
      have he' : (e.1 == k') = false := by
        simp only [beq_eq_false_iff_ne, hek']
        exact fun he => h he.symm
      simp [jget, hkk, he']
    · simp only [jget]
      split_ifs with h'
      · rfl
      · exact ih

/-- A fold of `jset` steps over keys not equal to `k` leaves `k` alone. -/
theorem jget_foldl_jset_not_mem (f : String → JVal) (k : String) :
    ∀ (ms : List String) (acc : JObj), k ∉ ms →
      jget (ms.foldl (fun a m => jset a m (f m)) acc) k = jget acc k := by
  intro ms
  induction ms with
  | nil => intro acc _; rfl
  | cons m rest ih =>
    intro acc hk
    simp only [List.foldl_cons]
    rw [ih _ (fun h => hk (List.mem_cons_of_mem _ h)),
      jget_jset_ne _ _ _ _ (fun h => hk (by subst h; exact List.mem_cons_self _ _))]

/-- After folding `jset` steps over `ms`, every key of `ms` holds its
assigned value. -/
theorem jget_foldl_jset_mem (f : String → JVal) (k : String) :
    ∀ (ms : List String) (acc : JObj), k ∈ ms →
      jget (ms.foldl (fun a m => jset a m (f m)) acc) k = some (f k) := by
  intro ms
  induction ms with
  | nil => intro acc h; simp at h
  | cons m rest ih =>
    intro acc hk
    simp only [List.foldl_cons]
    by_cases hmem : k ∈ rest
    · exact ih _ hmem
    · have hkm : k = m := by
        rcases List.mem_cons.mp hk with h | h
        · exact h
        · exact absurd h hmem
      subst hkm
      rw [jget_foldl_jset_not_mem _ _ _ _ hmem, jget_jset_self]

theorem jkeys_jset (o : JObj) (k : String) (v : JVal) :
    jkeys (jset o k v) = if k ∈ jkeys o then jkeys o else jkeys o ++ [k] := by
  induction o with
  | nil => simp [jset, jkeys]
  | cons e es ih =>
    by_cases hek : (e.1 == k) = true
    · have he : e.1 = k := by simpa using hek
      simp only [jset, hek, if_true]
      have hk : k ∈ jkeys (e :: es) := by simp [jkeys, he]
      rw [if_pos hk]
      simp [jkeys, he]
    · have he : e.1 ≠ k := by simpa using hek
      have hke : ¬ k = e.1 := fun h => he h.symm
      rw [show jset (e :: es) k v = e :: jset es k v from by
        rw [jset, if_neg hek]]
      have hcond : (k ∈ jkeys (e :: es)) ↔ (k ∈ jkeys es) := by
        simp [jkeys, hke]
      by_cases hkes : k ∈ jkeys es
      · rw [if_pos (hcond.mpr hkes)]
        rw [show jkeys (e :: jset es k v) = e.1 :: jkeys (jset es k v) from rfl,
          show jkeys (e :: es) = e.1 :: jkeys es from rfl, ih, if_pos hkes]
      · rw [if_neg (fun h => hkes (hcond.mp h))]
        rw [show jkeys (e :: jset es k v) = e.1 :: jkeys (jset es k v) from rfl,
          show jkeys (e :: es) = e.1 :: jkeys es from rfl, ih, if_neg hkes]
        rfl

theorem nodup_jkeys_jset (o : JObj) (k : String) (v : JVal)
    (h : (jkeys o).Nodup) : (jkeys (jset o k v)).Nodup := by
  rw [jkeys_jset]
  split_ifs with hk
  · exact h
  · simpa [List.nodup_append] using ⟨h, hk⟩

theorem jvalLe_total (a b : JVal) : jvalLe a b = true ∨ jvalLe b a = true := by
  cases a with
  | str s1 =>
    cases b with
    | str s2 => simpa [jvalLe, strLe] using lexLe_total s1.data s2.data
    | num q2 => simp [jvalLe]
  | num q1 =>
    cases b with
    | str s2 => simp [jvalLe]
    | num q2 => simpa [jvalLe] using le_total q1 q2

theorem jvalLe_trans (a b c : JVal) (hab : jvalLe a b = true)
    (hbc : jvalLe b c = true) : jvalLe a c = true := by
  cases a with
  | str s1 =>
    cases b with
    | num _ => simp [jvalLe] at hab
    | str s2 =>
      cases c with
      | num _ => simp [jvalLe] at hbc
      | str s3 =>
        simp only [jvalLe, strLe] at hab hbc ⊢
        exact lexLe_trans hab hbc
  | num q1 =>
    cases c with
    | str _ => simp [jvalLe]
    | num q3 =>
      cases b with
      | str _ => simp [jvalLe] at hbc
      | num q2 =>
        simp only [jvalLe, decide_eq_true_eq] at hab hbc ⊢
        exact le_trans hab hbc

theorem perm_insertB {le : α → α → Bool} (a : α) (l : List α) :
    (insertB le a l).Perm (a :: l) := by
  induction l with
  | nil => simp [insertB]
  | cons b bs ih =>
    simp only [insertB]
    split_ifs with h
    · exact List.Perm.refl _
    · exact (List.Perm.cons b ih).trans (List.Perm.swap a b bs)

theorem perm_sortB {le : α → α → Bool} (l : List α) :
    (sortB le l).Perm l := by
  induction l with
  | nil => simp [sortB]
  | cons a as ih => exact (perm_insertB a (sortB le as)).trans (List.Perm.cons a ih)

/-! ## Bucket-key format lemmas -/

@[simp]
theorem data_mk (l : List Char) : (String.mk l).data = l := rfl

theorem lexLe_padC_append {w n1 n2 : Nat} (h1 : n1 < 10 ^ w) (h2 : n2 < 10 ^ w)
    (r1 r2 : List Char) :
    lexLe (padC w n1 ++ r1) (padC w n2 ++ r2) =
      if n1 = n2 then lexLe r1 r2 else decide (n1 ≤ n2) := by
  rw [lexLe_append _ _ (by simp [padC_length])]
  by_cases h : n1 = n2
  · subst h
    simp
  · rw [if_neg (fun hp => h (padC_inj h1 h2 hp)), if_neg h]
    have hiff := lexLe_padC h1 h2
    cases hd : decide (n1 ≤ n2)
    · cases hl : lexLe (padC w n1) (padC w n2)
      · rfl
      · exact absurd (hiff.mp hl) (by simpa using hd)
    · cases hl : lexLe (padC w n1) (padC w n2)
      · exact absurd (hiff.mpr (by simpa using hd)) (by simp [hl])
      · rfl

theorem lexLe_cons_same (c : Char) (r1 r2 : List Char) :
    lexLe (c :: r1) (c :: r2) = lexLe r1 r2 := by
  simp [lexLe]

/-- Field bounds under which the zero-padded date formats are faithful. -/
def DateBounded (d : Date) : Prop :=
  d.year < 10000 ∧ d.month < 100 ∧ d.day < 100

/-- Bounds for a timestamp (date fields plus a two-digit hour). -/
def TsBounded (t : Ts) : Prop := DateBounded t.date ∧ t.hour < 100

/-- Lexicographic order on `%Y-%m-%d` strings is chronological order. -/
theorem strLe_fmtDate_iff {a b : Date} (ha : DateBounded a) (hb : DateBounded b) :
    (strLe (fmtDate a) (fmtDate b) = true) ↔ dateEnc a ≤ dateEnc b := by
  obtain ⟨hay, ham, had⟩ := ha
  obtain ⟨hby, hbm, hbd⟩ := hb
  have p4 : (10 : Nat) ^ 4 = 10000 := by norm_num
  have p2 : (10 : Nat) ^ 2 = 100 := by norm_num
  unfold strLe fmtDate
  rw [data_mk, data_mk]
  show lexLe
      (padC 4 a.year ++ ('-' :: (padC 2 a.month ++ ('-' :: padC 2 a.day))))
      (padC 4 b.year ++ ('-' :: (padC 2 b.month ++ ('-' :: padC 2 b.day)))) =
        true ↔ _
  rw [@lexLe_padC_append 4 a.year b.year (by rw [p4]; exact hay)
    (by rw [p4]; exact hby)
    ('-' :: (padC 2 a.month ++ ('-' :: padC 2 a.day)))
    ('-' :: (padC 2 b.month ++ ('-' :: padC 2 b.day)))]
  by_cases hy : a.year = b.year
  · rw [if_pos hy, lexLe_cons_same]
    rw [@lexLe_padC_append 2 a.month b.month (by rw [p2]; exact ham)
      (by rw [p2]; exact hbm) ('-' :: padC 2 a.day) ('-' :: padC 2 b.day)]
    by_cases hm : a.month = b.month
    · rw [if_pos hm, lexLe_cons_same]
      rw [@lexLe_padC 2 a.day b.day (by rw [p2]; exact had) (by rw [p2]; exact hbd)]
      unfold dateEnc
      omega
    · rw [if_neg hm]
      simp only [decide_eq_true_eq]
      unfold dateEnc
      omega
  · rw [if_neg hy]
    simp only [decide_eq_true_eq]
    unfold dateEnc
    omega

/-- Lexicographic order on `%Y-%m-%dT%H:00:00` strings is chronological
order of the hour buckets. -/
theorem strLe_hourKey_iff {t1 t2 : Ts} (h1 : TsBounded t1) (h2 : TsBounded t2) :
    (strLe (getDateGroup .hour t1) (getDateGroup .hour t2) = true) ↔
      dateEnc t1.date * 100 + t1.hour ≤ dateEnc t2.date * 100 + t2.hour := by
  obtain ⟨⟨hay, ham, had⟩, hah⟩ := h1
  obtain ⟨⟨hby, hbm, hbd⟩, hbh⟩ := h2
  have p4 : (10 : Nat) ^ 4 = 10000 := by norm_num
  have p2 : (10 : Nat) ^ 2 = 100 := by norm_num
  have hd1 : (getDateGroup .hour t1).data =
      padC 4 t1.date.year ++ '-' :: (padC 2 t1.date.month ++ '-' ::
        (padC 2 t1.date.day ++ 'T' :: (padC 2 t1.hour ++ (":00:00").data))) := by
    show (fmtDate t1.date ++ "T" ++ String.mk (padC 2 t1.hour) ++ ":00:00").data = _
    simp [fmtDate, String.data_append, List.append_assoc,
      show ("T").data = ['T'] from rfl]
  have hd2 : (getDateGroup .hour t2).data =
      padC 4 t2.date.year ++ '-' :: (padC 2 t2.date.month ++ '-' ::
        (padC 2 t2.date.day ++ 'T' :: (padC 2 t2.hour ++ (":00:00").data))) := by
    show (fmtDate t2.date ++ "T" ++ String.mk (padC 2 t2.hour) ++ ":00:00").data = _
    simp [fmtDate, String.data_append, List.append_assoc,
      show ("T").data = ['T'] from rfl]
  unfold strLe
  rw [hd1, hd2]
  rw [@lexLe_padC_append 4 t1.date.year t2.date.year (by rw [p4]; exact hay)
    (by rw [p4]; exact hby) _ _]
  by_cases hy : t1.date.year = t2.date.year
  · rw [if_pos hy, lexLe_cons_same]
    rw [@lexLe_padC_append 2 t1.date.month t2.date.month (by rw [p2]; exact ham)
      (by rw [p2]; exact hbm) _ _]
    by_cases hm : t1.date.month = t2.date.month
    · rw [if_pos hm, lexLe_cons_same]
      rw [@lexLe_padC_append 2 t1.date.day t2.date.day (by rw [p2]; exact had)
        (by rw [p2]; exact hbd) _ _]
      by_cases hd : t1.date.day = t2.date.day
      · rw [if_pos hd, lexLe_cons_same]
        rw [@lexLe_padC_append 2 t1.hour t2.hour (by rw [p2]; exact hah)
          (by rw [p2]; exact hbh) _ _]
        by_cases hh : t1.hour = t2.hour
        · rw [if_pos hh, lexLe_refl]
          unfold dateEnc
          simp only [true_iff]
          omega
        · rw [if_neg hh]
          simp only [decide_eq_true_eq]
          unfold dateEnc
          omega
      · rw [if_neg hd]
        simp only [decide_eq_true_eq]
        unfold dateEnc
        omega
    · rw [if_neg hm]
      simp only [decide_eq_true_eq]
      unfold dateEnc
      omega
  · rw [if_neg hy]
    simp only [decide_eq_true_eq]
    unfold dateEnc
    omega

theorem daysInMonth_le (y m : Nat) : daysInMonth y m ≤ 31 := by
  unfold daysInMonth
  split_ifs <;> omega

theorem dateBounded_calPrevDay {d : Date} (h : DateBounded d) :
    DateBounded (calPrevDay d) := by
  obtain ⟨hy, hm, hd⟩ := h
  unfold calPrevDay
  split_ifs with h1 h2
  · exact ⟨hy, hm, by simp; omega⟩
  · refine ⟨hy, by simp; omega, ?_⟩
    simp only
    have := daysInMonth_le d.year (d.month - 1)
    omega
  · exact ⟨by simp; omega, by simp, by simp⟩

theorem dateBounded_subDaysN {d : Date} (h : DateBounded d) (n : Nat) :
    DateBounded (subDaysN d n) := by
  induction n with
  | zero => exact h
  | succ n ih => exact dateBounded_calPrevDay ih

theorem dateBounded_isoWeekMonday {d : Date} (h : DateBounded d) :
    DateBounded (isoWeekMonday d) :=
  dateBounded_subDaysN h _

/-- The `date` field survives zero-fill normalization unchanged. -/
theorem rowDate_normalizeRow (M : List String) (r : JObj) :
    rowDate (normalizeRow M r) = rowDate r := by
  unfold rowDate normalizeRow
  by_cases h : "date" ∈ M
  · rw [jget_foldl_jset_mem (fun m => (jget r m).getD (JVal.num 0)) _ _ _ h]
    rfl
  · rw [jget_foldl_jset_not_mem (fun m => (jget r m).getD (JVal.num 0)) _ _ _ h]
    simp [jget]

/-! ## Group-by lemmas -/

theorem mem_firstKeysAux [DecidableEq K] {m : K} :
    ∀ {seen : List K} {l : List K},
      m ∈ firstKeysAux seen l ↔ m ∈ l ∧ m ∉ seen := by
  intro seen l
  induction l generalizing seen with
  | nil => simp [firstKeysAux]
  | cons k rest ih =>
    simp only [firstKeysAux]
    split_ifs with hk
    · rw [ih]
      constructor
      · rintro ⟨hm, hs⟩
        exact ⟨List.mem_cons_of_mem _ hm, hs⟩
      · rintro ⟨hm, hs⟩
        rcases List.mem_cons.mp hm with rfl | hm
        · exact absurd hk hs
        · exact ⟨hm, hs⟩
    · simp only [List.mem_cons, ih, List.mem_cons]
      constructor
      · rintro (rfl | ⟨hm, hs⟩)
        · exact ⟨Or.inl rfl, hk⟩
        · exact ⟨Or.inr hm, fun h => hs (Or.inr h)⟩
      · rintro ⟨rfl | hm, hs⟩
        · exact Or.inl rfl
        · by_cases hmk : m = k
          · exact Or.inl hmk
          · exact Or.inr ⟨hm, fun h => (by tauto : False)⟩

theorem mem_firstKeys [DecidableEq K] {m : K} {l : List K} :
    m ∈ firstKeys l ↔ m ∈ l := by
  simp [firstKeys, mem_firstKeysAux]

/-- `lookup` over a list pairing each key with a function of that key. -/
theorem lookup_keyed_map (ks : List String) (h : String → ℚ) (m : String) :
    List.lookup m (ks.map fun k => (k, h k)) =
      if m ∈ ks then some (h m) else none := by
  induction ks with
  | nil => simp [List.lookup]
  | cons k ks ih =>
    simp only [List.map_cons, List.lookup, List.mem_cons]
    by_cases hmk : m = k
    · subst hmk
      simp
    · have : (m == k) = false := by simp [hmk]
      simp [this, ih, hmk]

/-- The values of window observations named `m` (raw, unaggregated). -/
def windowValues (store : List Obs) (s e : Date) (m : String) : List ℚ :=
  (store.filter fun o => o.name == m && tsInRange s e o.timestamp).map (·.value)

/-- The aggregate the spec prescribes per metric: arithmetic mean for an
`avg`-policy metric, total for a `sum`-policy metric, `0` when the window
holds no observation of the metric. -/
def policyAggregate (m : String) (vs : List ℚ) : ℚ :=
  if vs = [] then 0
  else
    match (METRIC_CONFIG m).map MetricCfg.aggregation with
    | some .avg => vs.sum / (vs.length : ℚ)
    | _ => vs.sum

theorem aggregatePeriod_lookup (store : List Obs) (metrics : List String)
    (s e : Date) (m : String) (hm : m ∈ metrics) :
    ((aggregatePeriod store metrics s e).lookup m).getD 0 =
      policyAggregate m (windowValues store s e m) := by
  have hcont : metrics.contains m = true := List.elem_iff.mpr hm
  have hfilter :
      ((store.filter fun o =>
          metrics.contains o.name && tsInRange s e o.timestamp).filter
        (fun o => o.name == m)) =
      (store.filter fun o => o.name == m && tsInRange s e o.timestamp) := by
    rw [List.filter_filter]
    apply List.filter_congr
    intro o _
    by_cases hname : o.name = m
    · simp [hname, hcont, hm]
    · have hbf : (o.name == m) = false := beq_eq_false_iff_ne.mpr hname
      simp [hbf]
  simp only [aggregatePeriod]
  rw [lookup_keyed_map
    ((store.filter fun o =>
      metrics.contains o.name && tsInRange s e o.timestamp).map Obs.name |> firstKeys)
    _ m]
  split_ifs with hmem
  · rw [mem_firstKeys, List.mem_map] at hmem
    obtain ⟨o, ho, rfl⟩ := hmem
    have hne : windowValues store s e o.name ≠ [] := by
      rw [List.mem_filter] at ho
      have hmem' : o ∈ store.filter fun o' =>
          o'.name == o.name && tsInRange s e o'.timestamp := by
        rw [List.mem_filter]
        refine ⟨ho.1, ?_⟩
        have h2 := ho.2
        simp only [Bool.and_eq_true] at h2
        simp [h2.2]
      intro hnil
      unfold windowValues at hnil
      rw [List.map_eq_nil_iff] at hnil
      rw [hnil] at hmem'
      simp at hmem'
    simp only [Option.getD_some]
    have hvs : ((store.filter fun o' =>
        metrics.contains o'.name && tsInRange s e o'.timestamp).filter
          (fun o' => o'.name == o.name)).map Obs.value =
        windowValues store s e o.name := by
      rw [hfilter]
      rfl
    rw [hvs]
    unfold policyAggregate
    rw [if_neg hne]
    cases hcfg : METRIC_CONFIG o.name with
    | none => simp [hcfg]
    | some c =>
      cases hagg : c.aggregation <;> simp [hcfg, hagg]
  · rw [mem_firstKeys, List.mem_map] at hmem
    have hempty : windowValues store s e m = [] := by
      unfold windowValues
      rw [List.map_eq_nil_iff, List.filter_eq_nil_iff]
      intro o ho hb
      simp only [Bool.and_eq_true, beq_iff_eq] at hb
      exact hmem ⟨o, by
        rw [List.mem_filter]
        exact ⟨ho, by simp [hb.1, hcont, hb.2, hm]⟩, hb.1⟩
    simp [hempty, policyAggregate]

/-- **C5**: each KPI's `value` (over the current window) and
`previousValue` (over the code's previous window) realise the registry's
aggregation policy — arithmetic mean of the window's raw values for an
`avg` metric such as `bounce_rate`/`avg_session_duration`, total for a
`sum` metric — and default to `0` when the window has no observations. -/
theorem kpi_values_follow_aggregation_policy (store : List Obs) (s e : Date) :
    ((METRIC_CONFIG "bounce_rate").map MetricCfg.aggregation = some .avg ∧
     (METRIC_CONFIG "avg_session_duration").map MetricCfg.aggregation = some .avg ∧
     (METRIC_CONFIG "revenue").map MetricCfg.aggregation = some .sum) ∧
    ∀ kpi ∈ (getKPIs store s e).kpis,
      kpi.value = policyAggregate kpi.id (windowValues store s e kpi.id) ∧
      kpi.previousValue =
        policyAggregate kpi.id
          (windowValues store (subDays s (differenceInDays e s))
            (subDays e (differenceInDays e s)) kpi.id) := by
  refine ⟨⟨rfl, rfl, rfl⟩, ?_⟩
  intro kpi hk
  simp only [getKPIs, List.mem_map] at hk
  obtain ⟨m, hm, rfl⟩ := hk
  refine ⟨?_, ?_⟩
  · exact aggregatePeriod_lookup store kpiMetricNames s e m hm
  · exact aggregatePeriod_lookup store kpiMetricNames _ _ m hm

theorem nodup_firstKeysAux [DecidableEq K] :
    ∀ (seen l : List K), (firstKeysAux seen l).Nodup := by
  intro seen l
  induction l generalizing seen with
  | nil => simp [firstKeysAux]
  | cons k rest ih =>
    simp only [firstKeysAux]
    split_ifs with hk
    · exact ih seen
    · refine List.nodup_cons.mpr ⟨?_, ih (k :: seen)⟩
      intro hmem
      exact (mem_firstKeysAux.mp hmem).2 (List.mem_cons_self _ _)

theorem nodup_firstKeys [DecidableEq K] (l : List K) : (firstKeys l).Nodup :=
  nodup_firstKeysAux [] l

theorem strLe_total (a b : String) : strLe a b = true ∨ strLe b a = true :=
  lexLe_total a.data b.data

theorem strLe_trans {a b c : String} (hab : strLe a b = true)
    (hbc : strLe b c = true) : strLe a c = true :=
  lexLe_trans hab hbc

/-! ## Row structure lemmas (zero-fill) -/

/-- Folding keyed `jset` steps whose keys all differ from `k` leaves `k`
untouched. -/
theorem jget_foldl_keyed_not_mem {α : Type} (key : α → String) (val : α → JVal)
    (k : String) :
    ∀ (ps : List α) (acc : JObj), (∀ e ∈ ps, key e ≠ k) →
      jget (ps.foldl (fun a e => jset a (key e) (val e)) acc) k = jget acc k := by
  intro ps
  induction ps with
  | nil => intro acc _; rfl
  | cons e rest ih =>
    intro acc h
    simp only [List.foldl_cons]
    rw [ih _ (fun x hx => h x (List.mem_cons_of_mem _ hx)),
      jget_jset_ne _ _ _ _ (fun hk => h e (List.mem_cons_self _ _) hk.symm)]

/-- Folding keyed `jset` steps with numeric values keeps every key either
absent or numeric. -/
theorem jget_foldl_keyed_num {α : Type} (key : α → String) (qval : α → ℚ)
    (m : String) :
    ∀ (ps : List α) (acc : JObj),
      (jget acc m = none ∨ ∃ q : ℚ, jget acc m = some (JVal.num q)) →
      (jget (ps.foldl (fun a e => jset a (key e) (JVal.num (qval e))) acc) m =
          none ∨
        ∃ q : ℚ,
          jget (ps.foldl (fun a e => jset a (key e) (JVal.num (qval e))) acc) m =
            some (JVal.num q)) := by
  intro ps
  induction ps with
  | nil => intro acc h; exact h
  | cons e rest ih =>
    intro acc h
    simp only [List.foldl_cons]
    apply ih
    by_cases hk : m = key e
    · subst hk
      exact Or.inr ⟨qval e, jget_jset_self _ _ _⟩
    · rw [jget_jset_ne _ _ _ _ hk]
      exact h

/-- Key membership after the zero-fill fold. -/
theorem jkeys_foldl_jset_mem (f : String → JVal) (k : String) :
    ∀ (ms : List String) (acc : JObj),
      (k ∈ jkeys (ms.foldl (fun a m => jset a m (f m)) acc) ↔
        k ∈ jkeys acc ∨ k ∈ ms) := by
  intro ms
  induction ms with
  | nil => intro acc; simp
  | cons m rest ih =>
    intro acc
    simp only [List.foldl_cons]
    rw [ih]
    rw [jkeys_jset]
    by_cases hm : m ∈ jkeys acc
    · simp only [hm, if_true, List.mem_cons]
      constructor
      · rintro (h | h)
        · exact Or.inl h
        · exact Or.inr (Or.inr h)
      · rintro (h | rfl | h)
        · exact Or.inl h
        · exact Or.inl hm
        · exact Or.inr h
    · simp only [hm, if_false, List.mem_append, List.mem_singleton,
        List.mem_cons]
      tauto

/-- Key uniqueness is preserved by the zero-fill fold. -/
theorem jkeys_foldl_jset_nodup (f : String → JVal) :
    ∀ (ms : List String) (acc : JObj), (jkeys acc).Nodup →
      (jkeys (ms.foldl (fun a m => jset a m (f m)) acc)).Nodup := by
  intro ms
  induction ms with
  | nil => intro acc h; exact h
  | cons m rest ih =>
    intro acc h
    simp only [List.foldl_cons]
    exact ih _ (nodup_jkeys_jset _ _ _ h)

/-- Every entry of a time-series bucket group traces back to a matched
observation with that metric name and bucket key. -/
theorem tsGroup_entry_from_obs (store : List Obs) (p : TimeSeriesParams)
    (D : String) :
    ∀ x ∈ (tsGroupsSorted store p).filter (fun e => e.1.1 == D),
      ∃ o ∈ matchStage store p, o.name = x.1.2 ∧
        getDateGroup p.granularity o.timestamp = x.1.1 ∧ x.1.1 = D := by
  intro x hx
  rw [List.mem_filter] at hx
  obtain ⟨hx1, hxD⟩ := hx
  have hx2 : x ∈ tsGroups store p := mem_sortB.mp hx1
  unfold tsGroups at hx2
  rw [List.mem_map] at hx2
  obtain ⟨k, hk, rfl⟩ := hx2
  rw [mem_firstKeys, List.mem_map] at hk
  obtain ⟨o, ho, hko⟩ := hk
  exact ⟨o, ho, congrArg Prod.snd hko, congrArg Prod.fst hko,
    by simpa using hxD⟩

/-- Raw rows carry their bucket key in the `date` field. -/
theorem jget_rawRow_date (store : List Obs) (p : TimeSeriesParams)
    (hdate : "date" ∉ p.metrics) (D : String) :
    jget (rawRow store p D) "date" = some (JVal.str D) := by
  have h0 : ∀ e ∈ (tsGroupsSorted store p).filter (fun e => e.1.1 == D),
      e.1.2 ≠ "date" := by
    intro e he hk
    obtain ⟨o, ho, hname, -, -⟩ := tsGroup_entry_from_obs store p D e he
    unfold matchStage at ho
    rw [List.mem_filter] at ho
    have hcont := ho.2
    simp only [Bool.and_eq_true] at hcont
    have : o.name ∈ p.metrics := List.elem_iff.mp hcont.1.1
    rw [hname, hk] at this
    exact hdate this
  have hfold : jget (rawRow store p D) "date" =
      jget [("date", JVal.str D)] "date" :=
    jget_foldl_keyed_not_mem (fun e : (String × String) × ℚ => e.1.2) (fun e : (String × String) × ℚ => JVal.num e.2) "date"
      ((tsGroupsSorted store p).filter (fun e => e.1.1 == D))
      [("date", JVal.str D)] h0
  rw [hfold]
  simp [jget]

/-- **C2** (amended): provided no requested metric is literally named
`date`, every returned row has exactly the keys `{date} ∪ M` (no
duplicates), every requested metric is present with a numeric value —
never `null`/absent — and a metric with no observation in the row's bucket
carries exactly `0`. -/
theorem getTimeSeries_zero_fill (store : List Obs) (p : TimeSeriesParams)
    (hdate : "date" ∉ p.metrics) :
    ∀ row ∈ getTimeSeries store p,
      (jkeys row).Nodup ∧
      (∀ k, k ∈ jkeys row ↔ k = "date" ∨ k ∈ p.metrics) ∧
      (∀ m ∈ p.metrics, ∃ q : ℚ, jget row m = some (JVal.num q)) ∧
      (∀ m ∈ p.metrics,
        (¬ ∃ o ∈ matchStage store p, o.name = m ∧
          JVal.str (getDateGroup p.granularity o.timestamp) = rowDate row) →
        jget row m = some (JVal.num 0)) := by
  intro row hrow
  unfold getTimeSeries at hrow
  rw [List.mem_map] at hrow
  obtain ⟨r, hr, rfl⟩ := hrow
  unfold rawRows at hr
  rw [mem_sortB, List.mem_map] at hr
  obtain ⟨D, hD, rfl⟩ := hr
  have hdr := jget_rawRow_date store p hdate D
  have hrowdate : rowDate (normalizeRow p.metrics (rawRow store p D)) =
      JVal.str D := by
    rw [rowDate_normalizeRow]
    unfold rowDate
    rw [hdr]
    rfl
  refine ⟨?_, ?_, ?_, ?_⟩
  · unfold normalizeRow
    exact jkeys_foldl_jset_nodup _ _ _ (by simp [jkeys])
  · intro k
    unfold normalizeRow
    rw [jkeys_foldl_jset_mem]
    simp [jkeys]
  · intro m hm
    unfold normalizeRow
    rw [jget_foldl_jset_mem _ _ _ _ hm]
    have hmd : m ≠ "date" := fun h => hdate (h ▸ hm)
    have hdm : ("date" == m) = false :=
      beq_eq_false_iff_ne.mpr (fun h => hmd h.symm)
    have hacc : jget [("date", JVal.str D)] m = none := by
      simp [jget, hdm]
    have hnum : jget (rawRow store p D) m = none ∨
        ∃ q : ℚ, jget (rawRow store p D) m = some (JVal.num q) :=
      jget_foldl_keyed_num (fun e : (String × String) × ℚ => e.1.2) (fun e : (String × String) × ℚ => e.2) m
        ((tsGroupsSorted store p).filter (fun e => e.1.1 == D))
        [("date", JVal.str D)] (Or.inl hacc)
    rcases hnum with h | ⟨q, h⟩
    · rw [h]
      exact ⟨0, rfl⟩
    · rw [h]
      exact ⟨q, rfl⟩
  · intro m hm hno
    unfold normalizeRow
    rw [jget_foldl_jset_mem _ _ _ _ hm]
    have hmd : m ≠ "date" := fun h => hdate (h ▸ hm)
    have hdm : ("date" == m) = false :=
      beq_eq_false_iff_ne.mpr (fun h => hmd h.symm)
    have h0 : ∀ e ∈ (tsGroupsSorted store p).filter (fun e => e.1.1 == D),
        e.1.2 ≠ m := by
      intro e he hk
      obtain ⟨o, ho, hname, hbucket, hD'⟩ := tsGroup_entry_from_obs store p D e he
      exact hno ⟨o, ho, by rw [hname, hk], by rw [hbucket, hD', hrowdate]⟩
    have hnone : jget (rawRow store p D) m = none := by
      have hfold : jget (rawRow store p D) m = jget [("date", JVal.str D)] m :=
        jget_foldl_keyed_not_mem (fun e : (String × String) × ℚ => e.1.2) (fun e : (String × String) × ℚ => JVal.num e.2) m
          ((tsGroupsSorted store p).filter (fun e => e.1.1 == D))
          [("date", JVal.str D)] h0
      rw [hfold]
      simp [jget, hdm]
    rw [hnone]
    rfl

/-! ## Trend structure (for the KPI trend claim) -/

/-- The dates of a metric's trend entries. -/
def trendDates (kpi : KPIItem) : List String := kpi.trend.map Prod.fst

/-- Structure of every KPI trend: dates ascending, without duplicates, and
exactly the days of the current window holding at least one observation of
the metric. -/
theorem getKPIs_trend_structure (store : List Obs) (s e : Date) :
    ∀ kpi ∈ (getKPIs store s e).kpis,
      (trendDates kpi).Pairwise (fun a b => strLe a b = true) ∧
      (trendDates kpi).Nodup ∧
      (∀ dstr : String, dstr ∈ trendDates kpi ↔
        ∃ o ∈ store, o.name = kpi.id ∧ tsInRange s e o.timestamp = true ∧
          fmtDate o.timestamp.date = dstr) := by
  intro kpi hk
  simp only [getKPIs, List.mem_map] at hk
  obtain ⟨m, hm, rfl⟩ := hk
  simp only [trendDates, getTrends, List.map_map]
  refine ⟨?_, ?_, ?_⟩
  · have hp : (trendGroupsSorted store kpiMetricNames s e).Pairwise
        (fun a b => strLe a.1.1 b.1.1 = true) :=
      @pairwise_sortB ((String × String) × ℚ) (fun a b => strLe a.1.1 b.1.1)
        (fun a b => strLe_total a.1.1 b.1.1)
        (fun a b c hab hbc => strLe_trans hab hbc)
        (trendGroups store kpiMetricNames s e)
    have hf : ((trendGroupsSorted store kpiMetricNames s e).filter
        (fun g => g.1.2 == m)).Pairwise (fun a b => strLe a.1.1 b.1.1 = true) :=
      List.Pairwise.sublist (List.filter_sublist _) hp
    exact List.Pairwise.map _ (fun a b h => h) hf
  · have hnd : (trendGroups store kpiMetricNames s e).Nodup := by
      unfold trendGroups
      exact (nodup_firstKeys _).map
        (fun k1 k2 hkk => congrArg Prod.fst hkk)
    have hnds : (trendGroupsSorted store kpiMetricNames s e).Nodup :=
      ((perm_sortB _).nodup_iff).mpr hnd
    have hndf : ((trendGroupsSorted store kpiMetricNames s e).filter
        (fun g => g.1.2 == m)).Nodup :=
      hnds.sublist (List.filter_sublist _)
    refine List.Nodup.map_on ?_ hndf
    intro x hx y hy hxy
    have hx' := List.mem_filter.mp hx
    have hy' := List.mem_filter.mp hy
    have hxm : x.1.2 = m := by simpa using hx'.2
    have hym : y.1.2 = m := by simpa using hy'.2
    have hx2 : x ∈ trendGroups store kpiMetricNames s e :=
      mem_sortB.mp hx'.1
    have hy2 : y ∈ trendGroups store kpiMetricNames s e :=
      mem_sortB.mp hy'.1
    unfold trendGroups at hx2 hy2
    rw [List.mem_map] at hx2 hy2
    obtain ⟨k1, _, hk1⟩ := hx2
    obtain ⟨k2, _, hk2⟩ := hy2
    have hxy' : x.1.1 = y.1.1 := hxy
    have hkey : x.1 = y.1 := Prod.ext hxy' (hxm.trans hym.symm)
    have e1 : k1 = x.1 := congrArg Prod.fst hk1
    have e2 : k2 = y.1 := congrArg Prod.fst hk2
    have ek : k1 = k2 := by rw [e1, hkey, ← e2]
    rw [← hk1, ← hk2, ek]
  · intro dstr
    simp only [List.mem_map, List.mem_filter]
    constructor
    · rintro ⟨g, ⟨hgs, hgm⟩, rfl⟩
      have hg : g ∈ trendGroups store kpiMetricNames s e := mem_sortB.mp hgs
      unfold trendGroups at hg
      rw [List.mem_map] at hg
      obtain ⟨k, hk, rfl⟩ := hg
      rw [mem_firstKeys, List.mem_map] at hk
      obtain ⟨o, ho, hko⟩ := hk
      rw [List.mem_filter] at ho
      have hgm' : k.2 = m := by simpa using hgm
      refine ⟨o, ho.1, ?_, ?_, ?_⟩
      · rw [show o.name = (fmtDate o.timestamp.date, o.name).2 from rfl, hko, hgm']
      · have := ho.2
        simp only [Bool.and_eq_true] at this
        exact this.2
      · rw [show fmtDate o.timestamp.date =
          (fmtDate o.timestamp.date, o.name).1 from rfl, hko]
        rfl
    · rintro ⟨o, ho, hname, hrange, rfl⟩
      have hol : o ∈ store.filter fun o' =>
          kpiMetricNames.contains o'.name && tsInRange s e o'.timestamp := by
        rw [List.mem_filter]
        exact ⟨ho, by simp [hname, hrange, hm]⟩
      have hkmem : (fmtDate o.timestamp.date, o.name) ∈
          firstKeys ((store.filter fun o' =>
            kpiMetricNames.contains o'.name && tsInRange s e o'.timestamp).map
              fun o' => (fmtDate o'.timestamp.date, o'.name)) := by
        rw [mem_firstKeys, List.mem_map]
        exact ⟨o, hol, rfl⟩
      refine ⟨((fmtDate o.timestamp.date, o.name),
        (((store.filter fun o' =>
          kpiMetricNames.contains o'.name && tsInRange s e o'.timestamp).filter
            fun o' => (fmtDate o'.timestamp.date, o'.name) ==
              (fmtDate o.timestamp.date, o.name)).map Obs.value).sum),
        ⟨?_, by simp [hname]⟩, rfl⟩
      unfold trendGroupsSorted
      rw [mem_sortB]
      unfold trendGroups
      rw [List.mem_map]
      exact ⟨(fmtDate o.timestamp.date, o.name), hkmem, rfl⟩

/-! ## Cache-key structure lemmas -/

theorem mem_joinComma_data {ms : List String} {c : Char}
    (hc : c ∈ (joinComma ms).data) : c = ',' ∨ ∃ n ∈ ms, c ∈ n.data := by
  induction ms with
  | nil => simp [joinComma] at hc
  | cons x rest ih =>
    cases rest with
    | nil =>
      exact Or.inr ⟨x, List.mem_cons_self _ _, hc⟩
    | cons y ys =>
      rw [show joinComma (x :: y :: ys) = x ++ "," ++ joinComma (y :: ys)
        from rfl] at hc
      simp only [String.data_append, List.mem_append,
        show (",").data = [','] from rfl, List.mem_singleton] at hc
      rcases hc with (hc | rfl) | hc
      · exact Or.inr ⟨x, List.mem_cons_self _ _, hc⟩
      · exact Or.inl rfl
      · rcases ih hc with h | ⟨n, hn, hcn⟩
        · exact Or.inl h
        · exact Or.inr ⟨n, List.mem_cons_of_mem _ hn, hcn⟩

theorem colon_not_mem_joinComma {ms : List String}
    (h : ∀ n ∈ ms, ':' ∉ n.data) : ':' ∉ (joinComma ms).data := by
  intro hc
  rcases mem_joinComma_data hc with hcomma | ⟨n, hn, hcn⟩
  · exact absurd hcomma (by decide)
  · exact h n hn hcn

theorem joinComma_inj :
    ∀ (ms1 ms2 : List String),
      (∀ n ∈ ms1, n ≠ "" ∧ ',' ∉ n.data) →
      (∀ n ∈ ms2, n ≠ "" ∧ ',' ∉ n.data) →
      joinComma ms1 = joinComma ms2 → ms1 = ms2 := by
  intro ms1
  induction ms1 with
  | nil =>
    intro ms2 _ h2 heq
    cases ms2 with
    | nil => rfl
    | cons y ys =>
      cases ys with
      | nil => exact absurd heq.symm (h2 y (List.mem_cons_self _ _)).1
      | cons z zs =>
        rw [show joinComma (y :: z :: zs) = y ++ "," ++ joinComma (z :: zs)
          from rfl] at heq
        have := congrArg String.data heq
        simp [String.data_append, joinComma] at this
  | cons x xs ih =>
    intro ms2 h1 h2 heq
    cases ms2 with
    | nil =>
      cases xs with
      | nil => exact absurd heq (h1 x (List.mem_cons_self _ _)).1
      | cons z zs =>
        rw [show joinComma (x :: z :: zs) = x ++ "," ++ joinComma (z :: zs)
          from rfl] at heq
        have := congrArg String.data heq
        simp [String.data_append, joinComma] at this
    | cons y ys =>
      cases xs with
      | nil =>
        cases ys with
        | nil => rw [show joinComma [x] = x from rfl,
            show joinComma [y] = y from rfl] at heq
                 rw [heq]
        | cons b bs =>
          rw [show joinComma [x] = x from rfl,
            show joinComma (y :: b :: bs) = y ++ "," ++ joinComma (b :: bs)
              from rfl] at heq
          have hd := congrArg String.data heq
          simp only [String.data_append, show (",").data = [','] from rfl] at hd
          have : ',' ∈ x.data := by
            rw [hd]
            simp
          exact absurd this (h1 x (List.mem_cons_self _ _)).2
      | cons a as =>
        cases ys with
        | nil =>
          rw [show joinComma (x :: a :: as) = x ++ "," ++ joinComma (a :: as)
            from rfl, show joinComma [y] = y from rfl] at heq
          have hd := congrArg String.data heq
          simp only [String.data_append, show (",").data = [','] from rfl] at hd
          have : ',' ∈ y.data := by
            rw [← hd]
            simp
          exact absurd this (h2 y (List.mem_cons_self _ _)).2
        | cons b bs =>
          rw [show joinComma (x :: a :: as) = x ++ "," ++ joinComma (a :: as)
            from rfl,
            show joinComma (y :: b :: bs) = y ++ "," ++ joinComma (b :: bs)
              from rfl] at heq
          have hd := congrArg String.data heq
          simp only [String.data_append, show (",").data = [','] from rfl,
            List.append_assoc, List.singleton_append] at hd
          obtain ⟨hxy, hrest⟩ := sep_cancel (h1 x (List.mem_cons_self _ _)).2
            (h2 y (List.mem_cons_self _ _)).2 hd
          have hx : x = y := String.ext hxy
          have hj : joinComma (a :: as) = joinComma (b :: bs) :=
            String.ext hrest
          rw [hx, ih (b :: bs) (fun n hn => h1 n (List.mem_cons_of_mem _ hn))
            (fun n hn => h2 n (List.mem_cons_of_mem _ hn)) hj]

theorem fmtCompact_data_length (d : Date) : (fmtCompact d).data.length = 8 := by
  simp [fmtCompact, padC_length]

theorem fmtCompact_inj {d1 d2 : Date} (h1 : DateBounded d1) (h2 : DateBounded d2)
    (he : fmtCompact d1 = fmtCompact d2) : d1 = d2 := by
  obtain ⟨hy1, hm1, hd1⟩ := h1
  obtain ⟨hy2, hm2, hd2⟩ := h2
  have p4 : (10 : Nat) ^ 4 = 10000 := by norm_num
  have p2 : (10 : Nat) ^ 2 = 100 := by norm_num
  have hd := congrArg String.data he
  simp only [fmtCompact, data_mk] at hd
  obtain ⟨hys, hrest⟩ := List.append_inj
    (by simpa [List.append_assoc] using hd) (by simp [padC_length])
  obtain ⟨hms, hds⟩ := List.append_inj hrest (by simp [padC_length])
  have ey := padC_inj (by rw [p4]; exact hy1) (by rw [p4]; exact hy2) hys
  have em := padC_inj (by rw [p2]; exact hm1) (by rw [p2]; exact hm2) hms
  have ed := padC_inj (by rw [p2]; exact hd1) (by rw [p2]; exact hd2) hds
  cases d1
  cases d2
  simp_all

theorem colon_not_mem_padC {w n : Nat} : ':' ∉ padC w n := by
  intro h
  exact absurd rfl (padC_ne_sep h ':' (Or.inr (by decide)))

theorem colon_not_mem_fmtCompact (d : Date) : ':' ∉ (fmtCompact d).data := by
  intro hc
  simp only [fmtCompact, data_mk] at hc
  rcases List.mem_append.mp hc with hc | hc
  · rcases List.mem_append.mp hc with hc | hc <;> exact colon_not_mem_padC hc
  · exact colon_not_mem_padC hc

theorem colon_not_mem_granStr (g : Granularity) : ':' ∉ (granStr g).data := by
  cases g <;> decide

theorem granStr_inj {g1 g2 : Granularity} (h : granStr g1 = granStr g2) :
    g1 = g2 := by
  cases g1 <;> cases g2 <;> first | rfl | (exact absurd h (by decide))

/-- The character-level decomposition of a time-series cache key. -/
theorem tsCacheKey_data (p : TimeSeriesParams) :
    (tsCacheKey p).data =
      't' :: 's' :: ':' :: ((joinComma p.metrics).data ++
        ':' :: ((granStr p.granularity).data ++
          ':' :: (((fmtCompact p.startDate).data ++
            '-' :: (fmtCompact p.endDate).data) ++
              ':' :: (p.source.getD "all").data))) := by
  simp [tsCacheKey, String.data_append, List.append_assoc,
    show ("ts:").data = ['t', 's', ':'] from rfl,
    show (":").data = [':'] from rfl,
    show ("-").data = ['-'] from rfl]

/-- **C4** (amended): the key is deterministic in the request-order joined
metric list, granularity, compact zero-padded dates and source-or-`"all"`;
restricted to requests whose metric names are non-empty and free of `','`
and `':'` and whose source filter, when present, is not the literal
`"all"`, equal keys imply equal requests. -/
theorem tsCacheKey_injective_on_clean_requests (p q : TimeSeriesParams)
    (hp : ∀ n ∈ p.metrics, n ≠ "" ∧ ',' ∉ n.data ∧ ':' ∉ n.data)
    (hq : ∀ n ∈ q.metrics, n ≠ "" ∧ ',' ∉ n.data ∧ ':' ∉ n.data)
    (hps : p.source ≠ some "all") (hqs : q.source ≠ some "all")
    (hpd : DateBounded p.startDate ∧ DateBounded p.endDate)
    (hqd : DateBounded q.startDate ∧ DateBounded q.endDate)
    (hkey : tsCacheKey p = tsCacheKey q) : p = q := by
  have hd := congrArg String.data hkey
  rw [tsCacheKey_data, tsCacheKey_data] at hd
  simp only [List.cons.injEq, true_and] at hd
  obtain ⟨hmet, hrest⟩ := sep_cancel
    (colon_not_mem_joinComma (fun n hn => (hp n hn).2.2))
    (colon_not_mem_joinComma (fun n hn => (hq n hn).2.2)) hd
  have hmetrics : p.metrics = q.metrics :=
    joinComma_inj _ _ (fun n hn => ⟨(hp n hn).1, (hp n hn).2.1⟩)
      (fun n hn => ⟨(hq n hn).1, (hq n hn).2.1⟩) (String.ext hmet)
  obtain ⟨hgran, hrest2⟩ := sep_cancel
    (colon_not_mem_granStr p.granularity)
    (colon_not_mem_granStr q.granularity) hrest
  have hg : p.granularity = q.granularity := granStr_inj (String.ext hgran)
  have hdatesfree : ∀ (d1 d2 : Date),
      ':' ∉ (fmtCompact d1).data ++ '-' :: (fmtCompact d2).data := by
    intro d1 d2 hc
    rcases List.mem_append.mp hc with hc | hc
    · exact colon_not_mem_fmtCompact d1 hc
    · rcases List.mem_cons.mp hc with hc | hc
      · exact absurd hc (by decide)
      · exact colon_not_mem_fmtCompact d2 hc
  obtain ⟨hdates, hsrc⟩ := sep_cancel (hdatesfree _ _) (hdatesfree _ _) hrest2
  obtain ⟨hs, he⟩ := List.append_inj hdates
    (by rw [fmtCompact_data_length, fmtCompact_data_length])
  have hstart : p.startDate = q.startDate :=
    fmtCompact_inj hpd.1 hqd.1 (String.ext hs)
  have hend : p.endDate = q.endDate :=
    fmtCompact_inj hpd.2 hqd.2
      (String.ext (by simpa using he))
  have hsource : p.source = q.source := by
    have hseq : p.source.getD "all" = q.source.getD "all" := String.ext hsrc
    cases hps' : p.source with
    | none =>
      cases hqs' : q.source with
      | none => rfl
      | some s2 =>
        rw [hps', hqs'] at hseq
        simp only [Option.getD_some, Option.getD_none] at hseq
        exact absurd (by rw [hqs', ← hseq]) hqs
    | some s1 =>
      cases hqs' : q.source with
      | none =>
        rw [hps', hqs'] at hseq
        simp only [Option.getD_some, Option.getD_none] at hseq
        exact absurd (by rw [hps', hseq]) hps
      | some s2 =>
        rw [hps', hqs'] at hseq
        simp only [Option.getD_some] at hseq
        rw [hseq]
  cases p
  cases q
  simp_all

/-! ## Concrete fixtures used by witnesses and counterexamples -/

/-- Witness for the cache-key injectivity theorem: the example request
satisfies every domain restriction. -/
theorem tsCacheKey_injective_on_clean_requests_witness :
    (⟨⟨2025, 1, 1⟩, ⟨2025, 1, 2⟩, .day, ["revenue", "sessions"], none⟩ :
      TimeSeriesParams) =
    ⟨⟨2025, 1, 1⟩, ⟨2025, 1, 2⟩, .day, ["revenue", "sessions"], none⟩ :=
  tsCacheKey_injective_on_clean_requests
    ⟨⟨2025, 1, 1⟩, ⟨2025, 1, 2⟩, .day, ["revenue", "sessions"], none⟩
    ⟨⟨2025, 1, 1⟩, ⟨2025, 1, 2⟩, .day, ["revenue", "sessions"], none⟩
    (by decide) (by decide) (by decide) (by decide)
    ⟨⟨by decide, by decide, by decide⟩, by decide, by decide, by decide⟩
    ⟨⟨by decide, by decide, by decide⟩, by decide, by decide, by decide⟩
    rfl

/-- The revenue KPI item `getKPIs` produces on an empty store. -/
def emptyStoreRevenueKPI : KPIItem :=
  { id := "revenue", label := "Revenue", value := 0, previousValue := 0,
    fmt := .currency, trend := [] }

/-- A small store: two revenue observations and one sessions observation. -/
def exampleStore : List Obs :=
  [⟨"revenue", 100, ⟨⟨2025, 1, 1⟩, 5, 0, 0, 0⟩, "default"⟩,
   ⟨"revenue", 200, ⟨⟨2025, 1, 2⟩, 6, 0, 0, 0⟩, "default"⟩,
   ⟨"sessions", 10, ⟨⟨2025, 1, 1⟩, 7, 0, 0, 0⟩, "default"⟩]

/-- The spec's worked time-series request. -/
def exampleParams : TimeSeriesParams :=
  ⟨⟨2025, 1, 1⟩, ⟨2025, 1, 2⟩, .day, ["revenue", "sessions"], none⟩

/-- Witness for the aggregation-policy theorem: the revenue KPI over an
empty store, exercising the no-observation default of `0`. -/
theorem kpi_values_follow_aggregation_policy_witness :
    emptyStoreRevenueKPI.value =
      policyAggregate "revenue"
        (windowValues [] ⟨2025, 1, 1⟩ ⟨2025, 1, 2⟩ "revenue") ∧
    emptyStoreRevenueKPI.previousValue =
      policyAggregate "revenue"
        (windowValues []
          (subDays ⟨2025, 1, 1⟩ (differenceInDays ⟨2025, 1, 2⟩ ⟨2025, 1, 1⟩))
          (subDays ⟨2025, 1, 2⟩ (differenceInDays ⟨2025, 1, 2⟩ ⟨2025, 1, 1⟩))
          "revenue") :=
  (kpi_values_follow_aggregation_policy [] ⟨2025, 1, 1⟩ ⟨2025, 1, 2⟩).2
    emptyStoreRevenueKPI (by decide)

/-! ## Claim theorems -/

/-- **C1** (code bug evidence): `getKPIs` derives the previous period by
shifting both bounds back by `differenceInDays(endDate, startDate)`; for
the window 2025-01-08..2025-01-14 that difference is 6, so the code
produces the previous window 2025-01-02..2025-01-08 whose end equals
`startDate` — overlapping the current window — instead of the claimed
contiguous, non-overlapping window 2025-01-01..2025-01-07. -/
theorem getKPIs_previous_window_off_by_one :
    (getKPIs [] ⟨2025, 1, 8⟩ ⟨2025, 1, 14⟩).period.previous =
      ⟨"2025-01-02", "2025-01-08"⟩ ∧
    (getKPIs [] ⟨2025, 1, 8⟩ ⟨2025, 1, 14⟩).period.previous ≠
      ⟨"2025-01-01", "2025-01-07"⟩ ∧
    (getKPIs [] ⟨2025, 1, 8⟩ ⟨2025, 1, 14⟩).period.previous.stop =
      (getKPIs [] ⟨2025, 1, 8⟩ ⟨2025, 1, 14⟩).period.current.start := by
  exact ⟨by decide, by decide, by decide⟩

/-- **C9**: for a degenerate window `startDate = endDate`, the period
length is zero days, the previous window coincides with the current one,
and (against the unchanged store) every KPI's `previousValue` equals its
`value`. -/
theorem getKPIs_same_day_previous_equals_current (store : List Obs) (d : Date) :
    differenceInDays d d = 0 ∧
    subDays d (differenceInDays d d) = d ∧
    (getKPIs store d d).period.previous = (getKPIs store d d).period.current ∧
    (getKPIs store d d).kpis.map KPIItem.previousValue =
      (getKPIs store d d).kpis.map KPIItem.value := by
  have h0 : differenceInDays d d = 0 := by simp [differenceInDays]
  have hs : subDays d (differenceInDays d d) = d := by
    rw [h0]
    rfl
  refine ⟨h0, hs, ?_, ?_⟩
  · simp only [getKPIs, hs]
  · simp only [getKPIs, hs, List.map_map]
    rfl

/-- **C7**: with the relevant cache entry absent (cold cache, a failed
`get`, or the backend disabled entirely) both operations return exactly
the pure computation's value; cache errors never change results. -/
theorem cache_cold_equals_cache_disabled (store : List Obs)
    (tcache : String → Option (List JObj)) (kcache : String → Option KPIResponse)
    (p : TimeSeriesParams) (s e : Date)
    (ht : tcache (tsCacheKey p) = none) (hk : kcache (kpiCacheKey s e) = none) :
    (getTimeSeriesEff store tcache p).1 = getTimeSeries store p ∧
    (getTimeSeriesEff store (fun _ => none) p).1 = getTimeSeries store p ∧
    (getKPIsEff store kcache s e).1 = getKPIs store s e ∧
    (getKPIsEff store (fun _ => none) s e).1 = getKPIs store s e := by
  refine ⟨?_, rfl, ?_, rfl⟩
  · simp [getTimeSeriesEff, ht]
  · simp [getKPIsEff, hk]

/-- Witness for the cache-transparency theorem at concrete inputs. -/
theorem cache_cold_equals_cache_disabled_witness :
    (getTimeSeriesEff exampleStore (fun _ => none) exampleParams).1 =
      getTimeSeries exampleStore exampleParams ∧
    (getTimeSeriesEff exampleStore (fun _ => none) exampleParams).1 =
      getTimeSeries exampleStore exampleParams ∧
    (getKPIsEff exampleStore (fun _ => none) ⟨2025, 1, 8⟩ ⟨2025, 1, 14⟩).1 =
      getKPIs exampleStore ⟨2025, 1, 8⟩ ⟨2025, 1, 14⟩ ∧
    (getKPIsEff exampleStore (fun _ => none) ⟨2025, 1, 8⟩ ⟨2025, 1, 14⟩).1 =
      getKPIs exampleStore ⟨2025, 1, 8⟩ ⟨2025, 1, 14⟩ :=
  cache_cold_equals_cache_disabled exampleStore (fun _ => none) (fun _ => none)
    exampleParams ⟨2025, 1, 8⟩ ⟨2025, 1, 14⟩ rfl rfl

/-- **C10**: neither operation mutates the metric store, and the only
external write either performs is at most one cache entry, stored under
its computed key with TTL 120 seconds (time series) respectively 300
seconds (KPI response); on a cache hit nothing is written. -/
theorem store_unchanged_single_cache_write (store : List Obs)
    (tcache : String → Option (List JObj)) (kcache : String → Option KPIResponse)
    (p : TimeSeriesParams) (s e : Date) :
    (getTimeSeriesEff store tcache p).2.1 = store ∧
    (getKPIsEff store kcache s e).2.1 = store ∧
    CACHE_TTL = 120 ∧
    (getTimeSeriesEff store tcache p).2.2 =
      (match tcache (tsCacheKey p) with
       | some _ => []
       | none => [(tsCacheKey p, getTimeSeries store p, CACHE_TTL)]) ∧
    (getKPIsEff store kcache s e).2.2 =
      (match kcache (kpiCacheKey s e) with
       | some _ => []
       | none => [(kpiCacheKey s e, getKPIs store s e, 300)]) := by
  cases ht : tcache (tsCacheKey p) <;> cases hk : kcache (kpiCacheKey s e) <;>
    simp [getTimeSeriesEff, getKPIsEff, ht, hk, CACHE_TTL]

/-- **C8**: an empty metric set, or a window in which the store yields no
matching observation at all, produces the empty row sequence (and the
computation is total — no failure path exists). -/
theorem getTimeSeries_empty_on_no_buckets (store : List Obs)
    (p : TimeSeriesParams)
    (h : p.metrics = [] ∨ matchStage store p = []) :
    getTimeSeries store p = [] := by
  have hm : matchStage store p = [] := by
    rcases h with h | h
    · simp [matchStage, h]
    · exact h
  simp [getTimeSeries, rawRows, bucketsOf, tsGroupsSorted, tsGroups, hm,
    sortB, firstKeys, firstKeysAux]

/-- Witness: the empty metric list yields the empty row sequence even on a
non-empty store. -/
theorem getTimeSeries_empty_on_no_buckets_witness :
    getTimeSeries exampleStore
      ⟨⟨2025, 1, 1⟩, ⟨2025, 1, 2⟩, .day, [], none⟩ = [] :=
  getTimeSeries_empty_on_no_buckets exampleStore
    ⟨⟨2025, 1, 1⟩, ⟨2025, 1, 2⟩, .day, [], none⟩ (Or.inl rfl)

/-- Sortedness of the produced rows (used by the bucket-ordering claim). -/
theorem getTimeSeries_pairwise_dates (store : List Obs) (p : TimeSeriesParams) :
    (getTimeSeries store p).Pairwise
      (fun r1 r2 => jvalLe (rowDate r1) (rowDate r2) = true) := by
  unfold getTimeSeries rawRows
  have hp := pairwise_sortB
    (fun a b => jvalLe_total (rowDate a) (rowDate b))
    (fun a b c hab hbc => jvalLe_trans (rowDate a) (rowDate b) (rowDate c) hab hbc)
    ((bucketsOf store p).map (rawRow store p))
  exact List.Pairwise.map _
    (fun a b h => by
      rwa [rowDate_normalizeRow, rowDate_normalizeRow]) hp

/-- **C6**: the returned row sequence is sorted ascending on its `date`
field for every request, and for each of the four bucket-key formats,
byte-wise lexicographic order on keys coincides with chronological order
of the buckets they denote (in-range calendar fields). -/
theorem rows_sorted_and_bucket_keys_chronological :
    (∀ (store : List Obs) (p : TimeSeriesParams),
      (getTimeSeries store p).Pairwise
        (fun r1 r2 => jvalLe (rowDate r1) (rowDate r2) = true)) ∧
    (∀ t1 t2 : Ts, TsBounded t1 → TsBounded t2 →
      ((strLe (getDateGroup .day t1) (getDateGroup .day t2) = true) ↔
        dateEnc t1.date ≤ dateEnc t2.date)) ∧
    (∀ t1 t2 : Ts, TsBounded t1 → TsBounded t2 →
      ((strLe (getDateGroup .hour t1) (getDateGroup .hour t2) = true) ↔
        dateEnc t1.date * 100 + t1.hour ≤ dateEnc t2.date * 100 + t2.hour)) ∧
    (∀ t1 t2 : Ts, TsBounded t1 → TsBounded t2 →
      ((strLe (getDateGroup .month t1) (getDateGroup .month t2) = true) ↔
        t1.date.year * 100 + t1.date.month ≤
          t2.date.year * 100 + t2.date.month)) ∧
    (∀ t1 t2 : Ts, TsBounded t1 → TsBounded t2 →
      ((strLe (getDateGroup .week t1) (getDateGroup .week t2) = true) ↔
        dateEnc (isoWeekMonday t1.date) ≤ dateEnc (isoWeekMonday t2.date))) := by
  refine ⟨getTimeSeries_pairwise_dates, ?_, ?_, ?_, ?_⟩
  · intro t1 t2 h1 h2
    exact strLe_fmtDate_iff h1.1 h2.1
  · intro t1 t2 h1 h2
    exact strLe_hourKey_iff h1 h2
  · intro t1 t2 h1 h2
    have hb1 : DateBounded ⟨t1.date.year, t1.date.month, 1⟩ :=
      ⟨h1.1.1, h1.1.2.1, by norm_num⟩
    have hb2 : DateBounded ⟨t2.date.year, t2.date.month, 1⟩ :=
      ⟨h2.1.1, h2.1.2.1, by norm_num⟩
    rw [show getDateGroup .month t1 =
      fmtDate ⟨t1.date.year, t1.date.month, 1⟩ from rfl,
      show getDateGroup .month t2 =
      fmtDate ⟨t2.date.year, t2.date.month, 1⟩ from rfl,
      strLe_fmtDate_iff hb1 hb2]
    unfold dateEnc
    simp only
    omega
  · intro t1 t2 h1 h2
    rw [show getDateGroup .week t1 = fmtDate (isoWeekMonday t1.date) from rfl,
      show getDateGroup .week t2 = fmtDate (isoWeekMonday t2.date) from rfl,
      strLe_fmtDate_iff (dateBounded_isoWeekMonday h1.1)
        (dateBounded_isoWeekMonday h2.1)]

/-- Witness for the bucket-ordering theorem at two concrete timestamps. -/
theorem rows_sorted_and_bucket_keys_chronological_witness :
    ((strLe (getDateGroup .day ⟨⟨2025, 1, 8⟩, 5, 0, 0, 0⟩)
        (getDateGroup .day ⟨⟨2025, 3, 2⟩, 7, 0, 0, 0⟩) = true) ↔
      dateEnc ⟨2025, 1, 8⟩ ≤ dateEnc ⟨2025, 3, 2⟩) ∧
    ((strLe (getDateGroup .hour ⟨⟨2025, 1, 8⟩, 5, 0, 0, 0⟩)
        (getDateGroup .hour ⟨⟨2025, 3, 2⟩, 7, 0, 0, 0⟩) = true) ↔
      dateEnc ⟨2025, 1, 8⟩ * 100 + 5 ≤ dateEnc ⟨2025, 3, 2⟩ * 100 + 7) ∧
    ((strLe (getDateGroup .month ⟨⟨2025, 1, 8⟩, 5, 0, 0, 0⟩)
        (getDateGroup .month ⟨⟨2025, 3, 2⟩, 7, 0, 0, 0⟩) = true) ↔
      2025 * 100 + 1 ≤ 2025 * 100 + 3) ∧
    ((strLe (getDateGroup .week ⟨⟨2025, 1, 8⟩, 5, 0, 0, 0⟩)
        (getDateGroup .week ⟨⟨2025, 3, 2⟩, 7, 0, 0, 0⟩) = true) ↔
      dateEnc (isoWeekMonday ⟨2025, 1, 8⟩) ≤ dateEnc (isoWeekMonday ⟨2025, 3, 2⟩)) :=
  ⟨rows_sorted_and_bucket_keys_chronological.2.1 ⟨⟨2025, 1, 8⟩, 5, 0, 0, 0⟩
      ⟨⟨2025, 3, 2⟩, 7, 0, 0, 0⟩ ⟨⟨by decide, by decide, by decide⟩, by decide⟩
      ⟨⟨by decide, by decide, by decide⟩, by decide⟩,
   rows_sorted_and_bucket_keys_chronological.2.2.1 ⟨⟨2025, 1, 8⟩, 5, 0, 0, 0⟩
      ⟨⟨2025, 3, 2⟩, 7, 0, 0, 0⟩ ⟨⟨by decide, by decide, by decide⟩, by decide⟩
      ⟨⟨by decide, by decide, by decide⟩, by decide⟩,
   rows_sorted_and_bucket_keys_chronological.2.2.2.1 ⟨⟨2025, 1, 8⟩, 5, 0, 0, 0⟩
      ⟨⟨2025, 3, 2⟩, 7, 0, 0, 0⟩ ⟨⟨by decide, by decide, by decide⟩, by decide⟩
      ⟨⟨by decide, by decide, by decide⟩, by decide⟩,
   rows_sorted_and_bucket_keys_chronological.2.2.2.2 ⟨⟨2025, 1, 8⟩, 5, 0, 0, 0⟩
      ⟨⟨2025, 3, 2⟩, 7, 0, 0, 0⟩ ⟨⟨by decide, by decide, by decide⟩, by decide⟩
      ⟨⟨by decide, by decide, by decide⟩, by decide⟩⟩

/-- **C2** (counterexample): requesting the metric literally named `date`
defeats the zero-fill promise: on a store with a single revenue
observation, the request `metrics = ["date", "revenue"]` yields one row
whose `date` key holds the bucket string — so the requested metric
`"date"`, which has no observations at all, is not present with value `0`. -/
theorem getTimeSeries_date_metric_counterexample :
    (getTimeSeries [⟨"revenue", 100, ⟨⟨2025, 1, 1⟩, 5, 0, 0, 0⟩, "default"⟩]
        ⟨⟨2025, 1, 1⟩, ⟨2025, 1, 2⟩, .day, ["date", "revenue"], none⟩).map
      (fun r => jget r "date") = [some (JVal.str "2025-01-01")] ∧
    some (JVal.str "2025-01-01") ≠ some (JVal.num 0) ∧
    ¬ ∃ o ∈ [(⟨"revenue", 100, ⟨⟨2025, 1, 1⟩, 5, 0, 0, 0⟩, "default"⟩ : Obs)],
      o.name = "date" :=
  ⟨by decide, by decide, by decide⟩

/-- The second row of the example request (bucket `2025-01-02`). -/
def exampleSecondRow : JObj :=
  normalizeRow exampleParams.metrics (rawRow exampleStore exampleParams "2025-01-02")

/-- Witness for the zero-fill theorem: in the example request's second
row, `sessions` has no observation and is present with value `0`. -/
theorem getTimeSeries_zero_fill_witness :
    (jkeys exampleSecondRow).Nodup ∧
    ("sessions" ∈ jkeys exampleSecondRow ↔
      "sessions" = "date" ∨ "sessions" ∈ exampleParams.metrics) ∧
    (∃ q : ℚ, jget exampleSecondRow "sessions" = some (JVal.num q)) ∧
    jget exampleSecondRow "sessions" = some (JVal.num 0) := by
  have hmem : exampleSecondRow ∈ getTimeSeries exampleStore exampleParams := by
    have h : (getTimeSeries exampleStore exampleParams)[1]? =
        some exampleSecondRow := rfl
    exact List.getElem?_mem h
  have H := getTimeSeries_zero_fill exampleStore exampleParams (by decide)
    exampleSecondRow hmem
  exact ⟨H.1, H.2.1 "sessions", H.2.2.1 "sessions" (by decide),
    H.2.2.2 "sessions" (by decide) (by decide)⟩

/-- **C3** (counterexample): over the 7-day window 2025-01-08..2025-01-14,
a store holding a single revenue observation (on 2025-01-10) produces a
revenue trend with exactly one entry — and empty trends for the other
seven registry metrics — not seven daily entries per metric: `getTrends`
emits entries only for days holding observations and never zero-fills. -/
theorem getKPIs_trend_single_entry_counterexample :
    dayNumber ⟨2025, 1, 14⟩ - dayNumber ⟨2025, 1, 8⟩ + 1 = 7 ∧
    ((getKPIs [⟨"revenue", 100, ⟨⟨2025, 1, 10⟩, 12, 0, 0, 0⟩, "default"⟩]
        ⟨2025, 1, 8⟩ ⟨2025, 1, 14⟩).kpis.map fun k => k.trend.length) =
      [1, 0, 0, 0, 0, 0, 0, 0] :=
  ⟨by decide, by decide⟩

/-- Witness for the trend-structure theorem: the empty store's revenue KPI
over a one-day window. -/
theorem getKPIs_trend_structure_witness :
    (trendDates emptyStoreRevenueKPI).Pairwise (fun a b => strLe a b = true) ∧
    (trendDates emptyStoreRevenueKPI).Nodup ∧
    ("2025-01-01" ∈ trendDates emptyStoreRevenueKPI ↔
      ∃ o ∈ ([] : List Obs), o.name = emptyStoreRevenueKPI.id ∧
        tsInRange ⟨2025, 1, 8⟩ ⟨2025, 1, 8⟩ o.timestamp = true ∧
        fmtDate o.timestamp.date = "2025-01-01") :=
  have h := getKPIs_trend_structure [] ⟨2025, 1, 8⟩ ⟨2025, 1, 8⟩
    emptyStoreRevenueKPI (by decide)
  ⟨h.1, h.2.1, h.2.2 "2025-01-01"⟩

/-- **C4** (counterexample): the cache key is built from the metric list in
request order, not sorted — `["b","a"]` and `["a","b"]` get different
keys — and keys do collide across semantically different requests: a
request with no source filter and the same request with the explicit
source filter `"all"` share one key yet return different row sets on a
store whose observations carry another source tag. -/
theorem tsCacheKey_collision :
    tsCacheKey ⟨⟨2025, 1, 1⟩, ⟨2025, 1, 2⟩, .day, ["revenue"], none⟩ =
      tsCacheKey ⟨⟨2025, 1, 1⟩, ⟨2025, 1, 2⟩, .day, ["revenue"], some "all"⟩ ∧
    (⟨⟨2025, 1, 1⟩, ⟨2025, 1, 2⟩, .day, ["revenue"], none⟩ : TimeSeriesParams) ≠
      ⟨⟨2025, 1, 1⟩, ⟨2025, 1, 2⟩, .day, ["revenue"], some "all"⟩ ∧
    getTimeSeries [⟨"revenue", 5, ⟨⟨2025, 1, 1⟩, 1, 0, 0, 0⟩, "web"⟩]
        ⟨⟨2025, 1, 1⟩, ⟨2025, 1, 2⟩, .day, ["revenue"], none⟩ ≠
      getTimeSeries [⟨"revenue", 5, ⟨⟨2025, 1, 1⟩, 1, 0, 0, 0⟩, "web"⟩]
        ⟨⟨2025, 1, 1⟩, ⟨2025, 1, 2⟩, .day, ["revenue"], some "all"⟩ ∧
    tsCacheKey ⟨⟨2025, 1, 1⟩, ⟨2025, 1, 2⟩, .day, ["b", "a"], none⟩ ≠
      tsCacheKey ⟨⟨2025, 1, 1⟩, ⟨2025, 1, 2⟩, .day, ["a", "b"], none⟩ := by
  exact ⟨rfl, by decide, by decide, by decide⟩

end DashAnalytics
